import Mathlib

/-!
Verification of the PyNFG decision-node CPT operations and of the level-K
best-response solver.

This file is a shallow embedding of `pynfg/classes/decisionnode.py` (the
`DecisionNode` class: CPT creation, index resolution, sampling, random and
uniform generation, perturbation) and of
`pynfg/levelksolutions/bestresponse.py` (the `BestResponse` session:
Level-0 seeding, `train_node`, `solve_game`), together with proofs and
refutations of the specified properties.

Modelling conventions:
* numpy float arrays are modelled with exact rationals (`ℚ`); a CPT tensor
  of shape `(s_1, ..., s_n, k)` is modelled row-major as the list of its
  `s_1 * ... * s_n` trailing-axis rows, each row of length `k`;
* every `np.random` draw is passed in as an explicit parameter;
* Python exceptions are modelled with `Except PyErr`;
* the per-node level store (a Python dict with keys `'Level' + str(n)`) is
  modelled as `ℕ → Option Tensor`, which is faithful because `str` is
  injective on the naturals;
* all node values live in a single type `V` with decidable equality, which
  models the scalar or elementwise `==` test used by the source.
-/

namespace PyNFG

/-- A CPT tensor: the list of its trailing-axis rows (row-major over the
parent-configuration axes), each row a distribution over the node's own
space. -/
abbrev Tensor : Type := List (List ℚ)

/-- Python exceptions raised by the modelled code. -/
inductive PyErr : Type where
  /-- KeyError raised by `train_node`: `'Need to train other players at
  level l'`. -/
  | keyError (level : ℕ)
  /-- KeyError from looking up a missing node name in `node_dict`. -/
  | nameKeyError (name : String)
  /-- AttributeError (in `draw_value`) or RuntimeError (in `prob`):
  `'CPT for <name> is just a zeros array'`. -/
  | uninitializedCPT (name : String)
  /-- ValueError from `list.index(True)` when a value is in no space slot. -/
  | valueNotInList
  /-- ValueError from `ndarray.argmax` on an empty array. -/
  | emptyArgmax
  /-- IndexError from indexing outside an array. -/
  | indexError
  /-- TypeError `'integer argument expected, got float'` raised by the
  Python 2.7 `xrange` when handed a float. -/
  | typeError
  /-- UnboundLocalError: a local variable read before assignment. -/
  | unboundLocal
  /-- ValueError from numpy when a slice assignment cannot broadcast. -/
  | broadcastError
  deriving DecidableEq

/-- Turn an optional value into an `Except`, raising `e` on `none`. -/
def ofOption {α : Type} (e : PyErr) : Option α → Except PyErr α
  | some a => .ok a
  | none => .error e

/-- A Python for-loop over a list, threading loop state, with exceptions
aborting the loop. -/
def pyFold {α β : Type} (f : β → α → Except PyErr β) : β → List α → Except PyErr β
  | b, [] => .ok b
  | b, a :: as =>
    match f b a with
    | .ok b' => pyFold f b' as
    | .error e => .error e

/-- A parent node as seen from a `DecisionNode`: `decisionnode.py` reads
only the parent's `space` and its current `value`. -/
structure PNode (V : Type) where
  space : List V
  value : V

/-- The `DecisionNode` class of `decisionnode.py`, extended with the two
attributes a `BestResponse` session injects (`Level`, `LevelCPT`). -/
structure DNode (V : Type) where
  name : String
  player : String
  space : List V
  parents : List (String × PNode V)
  value : V
  CPT : Tensor
  Level : ℕ := 0
  LevelCPT : ℕ → Option Tensor := fun _ => none

/-- The parent axis sizes of a node's CPT, in parent-insertion order. -/
def parentSizes {V : Type} (parents : List (String × PNode V)) : List ℕ :=
  parents.map (fun pr => pr.2.space.length)

/-- Method `DecisionNode._createCPT`: a zero tensor shaped by the parent
space sizes followed by the own space size. -/
def createCPT {V : Type} (parents : List (String × PNode V)) (space : List V) : Tensor :=
  List.replicate (parentSizes parents).prod (List.replicate space.length 0)

/-- The negation of `ndarray.any()`: true when every entry is zero. -/
def allZero (t : Tensor) : Bool :=
  t.all (fun r => r.all (fun q => decide (q = 0)))

/-- The trailing axis size `shape[-1]` of a (well-shaped) tensor. -/
def shapeLast (t : Tensor) : ℕ := (t.headD []).length

/-- The position of a value in a space: the index of the first member equal
to it, i.e. `truth.index(True)` over `truth = [(x == v).all() for x in
space]`; `none` models the ValueError raised when no member matches. -/
def idxOf? {V : Type} [DecidableEq V] : List V → V → Option ℕ
  | [], _ => none
  | x :: xs, v => if x = v then some 0 else (idxOf? xs v).map (· + 1)

/-- Resolve one index per parent, in parent order: the caller-supplied
value when the parent is named in `input`, the parent's current value
otherwise, located in that parent's space. Translated from the inline
sliver-resolution loop of `perturbCPT` (`decisionnode.py` lines 271-282).
Modelled from the spec: `dict2list_vals` and `get_CPTindex` (defined in
`node.py`, which is not among the sources) perform this same resolution
according to the spec's index-resolution rule, so `prob` and `draw_value`
below share this definition. -/
def resolveParents {V : Type} [DecidableEq V] (parents : List (String × PNode V))
    (input : List (String × V)) : Except PyErr (List ℕ) :=
  match parents with
  | [] => .ok []
  | pr :: rest =>
    match idxOf? pr.2.space ((input.lookup pr.1).getD pr.2.value) with
    | some i => (resolveParents rest input).map (fun is => i :: is)
    | none => .error .valueNotInList

/-- Row-major flattening of a full parent index tuple against the parent
axis sizes: the row number of the tuple's trailing-axis slice. -/
def flatIndex : List ℕ → List ℕ → ℕ
  | _ :: ss, i :: is => i * ss.prod + flatIndex ss is
  | _, _ => 0

/-- Method `DecisionNode.prob` (`decisionnode.py` lines 290-326): reject
the all-zero sentinel CPT, default the own value to the current value,
resolve the full index and return the CPT entry found there. -/
def prob {V : Type} [DecidableEq V] (n : DNode V) (parentinput : List (String × V))
    (valueinput : Option V) : Except PyErr ℚ :=
  if allZero n.CPT then .error (.uninitializedCPT n.name) else
    match resolveParents n.parents parentinput with
    | .error e => .error e
    | .ok pidx =>
      match n.CPT.get? (flatIndex (parentSizes n.parents) pidx) with
      | none => .error .indexError
      | some row =>
        match idxOf? n.space (valueinput.getD n.value) with
        | none => .error .valueNotInList
        | some vi =>
          match row.get? vi with
          | none => .error .indexError
          | some q => .ok q

/-- The numpy natural logarithm on a probability entry, valued in the
extended reals: `np.log 0 = -inf`. -/
noncomputable def np_log (q : ℚ) : EReal :=
  if q = 0 then ⊥ else ((Real.log (q : ℝ) : ℝ) : EReal)

/-- Method `DecisionNode.logprob` (`decisionnode.py` lines 328-358):
`np.log(self.prob(parentinput, valueinput))`. -/
noncomputable def logprob {V : Type} [DecidableEq V] (n : DNode V)
    (parentinput : List (String × V)) (valueinput : Option V) : Except PyErr EReal :=
  (prob n parentinput valueinput).map np_log

/-- Partial sums, as `np.cumsum`. -/
def cumsum : List ℚ → List ℚ
  | [] => []
  | x :: xs => x :: (cumsum xs).map (fun c => x + c)

/-- The least index whose entry is at least `u`, i.e.
`np.nonzero(cdf >= cutoff)[0][0]`; `none` models the IndexError raised when
no entry qualifies. -/
def firstGE (u : ℚ) : List ℚ → Option ℕ
  | [] => none
  | c :: cs => if u ≤ c then some 0 else (firstGE u cs).map (· + 1)

/-- The index of the first maximal entry (`ndarray.argmax`); `none` on an
empty array. -/
def argmaxIdx? : List ℚ → Option ℕ
  | [] => none
  | x :: xs =>
    match argmaxIdx? xs with
    | none => some 0
    | some j => if x < xs.getD j 0 then some (j + 1) else some 0

/-- Method `DecisionNode.draw_value` (`decisionnode.py` lines 131-175),
with `u` standing for the uniform draw `np.random.rand()`. The returned
space element is also written to `self.value` when `setvalue` holds; the
function's value models the returned element. -/
def draw_value {V : Type} [DecidableEq V] (n : DNode V) (parentinput : List (String × V))
    (u : ℚ) (mode : Bool) : Except PyErr V :=
  if allZero n.CPT then .error (.uninitializedCPT n.name) else
    match resolveParents n.parents parentinput with
    | .error e => .error e
    | .ok pidx =>
      match n.CPT.get? (flatIndex (parentSizes n.parents) pidx) with
      | none => .error .indexError
      | some row =>
        match if mode then ofOption .emptyArgmax (argmaxIdx? row)
              else ofOption .indexError (firstGE u (cumsum row)) with
        | .error e => .error e
        | .ok idx =>
          match n.space.get? idx with
          | none => .error .indexError
          | some r => .ok r

/-- A one-hot row of length `k` with the unit mass at position `j`. -/
def oneHot (k j : ℕ) : List ℚ :=
  (List.range k).map (fun i => if i = j then 1 else 0)

/-- The fixed upper bound `M = 100000000` of the mixed random draw. -/
def M100 : ℕ := 100000000

/-- Consecutive differences along a list (`np.diff`). -/
def diffs : List ℚ → List ℚ
  | a :: b :: t => (b - a) :: diffs (b :: t)
  | _ => []

/-- Elementwise embedding of a machine-integer array into a float array. -/
def castQ (l : List ℕ) : List ℚ :=
  l.map (fun (m : ℕ) => (m : ℚ))

/-- One trailing-axis row of a mixed random CPT: append `0` and `M` to the
`k-1` sampled integers, sort, take consecutive differences, divide by `M`
(the mixed branch of `randomCPT`). Sorting the float array is modelled by
sorting the integers and then casting, which commutes. -/
def simplexRow (M : ℕ) (xs : List ℕ) : List ℚ :=
  (diffs (castQ (List.insertionSort (· ≤ ·) (0 :: xs ++ [M])))).map
    (fun d => d / (M : ℚ))

/-- Method `DecisionNode.randomCPT` (`decisionnode.py` lines 177-212) as a
function of the random draws: `ys` are the `randint(0, k)` draws of the
pure branch (one per parent configuration, each row becoming one-hot) and
`xss` are the `randint(1, M)` draw rows of the mixed branch (`k-1` integers
per configuration). The generated tensor is returned; `setCPT` merely
stores it on the node. -/
def randomCPT (t : Tensor) (mixed : Bool) (ys : List ℕ) (xss : List (List ℕ)) : Tensor :=
  if mixed = false then ys.map (oneHot (shapeLast t))
  else xss.map (simplexRow M100)

/-- Method `DecisionNode.uniformCPT` (`decisionnode.py` lines 214-228):
`np.zeros(self.CPT.shape) + 1/self.CPT.shape[-1]`. -/
def uniformCPT (t : Tensor) : Tensor :=
  t.map (fun r => r.map (fun _ => 1 / (shapeLast t : ℚ)))

/-- Elementwise `a*(1-noise) + b*noise` over two trailing-axis rows. -/
def blendRow (noise : ℚ) (a b : List ℚ) : List ℚ :=
  a.zipWith (fun x y => x * (1 - noise) + y * noise) b

/-- A Python 2 float value, as produced by true division
(`from __future__ import division` is in force in `decisionnode.py`). -/
structure PyFloat : Type where
  val : ℚ

/-- True division of two machine integers: always a `PyFloat`. -/
def pyTrueDiv (a b : ℕ) : PyFloat := ⟨(a : ℚ) / (b : ℚ)⟩

/-- Python 2.7 `xrange` applied to a float: the `'l'` argument converter
rejects floats outright, so this raises
`TypeError: integer argument expected, got float` whatever the value. -/
def pyXrange : PyFloat → Except PyErr (List ℕ) :=
  fun _ => .error .typeError

/-- A Python slice `l[lo:hi]` (clamping at the ends like Python). -/
def pySlice (l : List ℚ) (lo hi : ℕ) : List ℚ :=
  (l.drop lo).take (hi - lo)

/-- Numpy slice assignment `l[lo:hi] = src`: raises a broadcast ValueError
unless `src` has exactly the length of the addressed slice. -/
def sliceAssign (l : List ℚ) (lo hi : ℕ) (src : List ℚ) : Except PyErr (List ℚ) :=
  if src.length = (pySlice l lo hi).length then
    .ok (l.take lo ++ src ++ l.drop (max lo hi))
  else .error .broadcastError

/-- `ndarray.reshape(rows, k)` of a flat array whose length is `rows * k`. -/
def reshapeRows (k : ℕ) (l : List ℚ) : Tensor :=
  (List.range (l.length / k)).map (fun j => pySlice l (j * k) ((j + 1) * k))

/-- The outcome of a `perturbCPT` call: the node's `self.CPT` after the
call (which covers the in-place sliver mutation) and the tensor returned
when `setCPT` is false. -/
structure PerturbResult : Type where
  newCPT : Tensor
  ret : Option Tensor
  deriving DecidableEq

/-- Method `DecisionNode.perturbCPT` (`decisionnode.py` lines 230-288) as a
function of the random draws (`ys` and `xss` feed the internal `randomCPT`
calls, `coins` the per-configuration `np.random.rand()` draws of the pure
branch).

Pure branch without a sliver: `flat` is a fresh copy (`ndarray.flatten`),
and `steps = len(flat)/shape_last` is a Python float under true division,
so the call `xrange(steps)` raises TypeError before anything is written;
the loop after it (dead code, still translated) would in any case raise a
broadcast ValueError whenever it fires, its left slice being one entry
shorter than its right slice. Pure branch with a sliver: the whole branch
body is skipped, `z` is never assigned, and reading `z` at the tail of the
method raises UnboundLocalError.

Mixed branch with a sliver: `z = self.CPT` aliases the live array, and
`z[indo] = ...` mutates it in place, so `newCPT` is the updated tensor even
when `setCPT` is false. -/
def perturbCPT {V : Type} [DecidableEq V] (n : DNode V) (noise : ℚ) (mixed : Bool)
    (sliver : List (String × V)) (setC : Bool) (ys : List ℕ)
    (xss : List (List ℕ)) (coins : List ℚ) : Except PyErr PerturbResult :=
  if mixed = false then
    if sliver.isEmpty then
      let altCPT := randomCPT n.CPT false ys xss
      let flat := n.CPT.flatten
      let k := shapeLast n.CPT
      let steps := pyTrueDiv flat.length k
      match pyXrange steps with
      | .error e => .error e
      | .ok js =>
        match pyFold (fun fl j =>
            if coins.getD j 1 < noise then
              sliceAssign fl (j * k) ((j + 1) * k - 1)
                (pySlice altCPT.flatten (j * k) ((j + 1) * k))
            else .ok fl) flat js with
        | .error e => .error e
        | .ok flat2 =>
          let z := reshapeRows k flat2
          .ok ⟨if setC then z else n.CPT, if setC then none else some z⟩
    else
      .error .unboundLocal
  else
    let randCPT := randomCPT n.CPT true ys xss
    if sliver.isEmpty then
      let z := n.CPT.zipWith (blendRow noise) randCPT
      .ok ⟨if setC then z else n.CPT, if setC then none else some z⟩
    else
      match resolveParents n.parents sliver with
      | .error e => .error e
      | .ok ind =>
        match n.CPT.get? (flatIndex (parentSizes n.parents) ind) with
        | none => .error .indexError
        | some zrow =>
          match (randomCPT n.CPT true ys xss).get? (flatIndex (parentSizes n.parents) ind) with
          | none => .error .indexError
          | some rrow =>
            let z := n.CPT.set (flatIndex (parentSizes n.parents) ind) (blendRow noise zrow rrow)
            .ok ⟨z, if setC then none else some z⟩

/-- The node's live CPT after a `perturbCPT` call: unchanged when an
exception was raised (every failure point precedes every write), the
result's `newCPT` otherwise. -/
def cptAfter {V : Type} (n : DNode V) (r : Except PyErr PerturbResult) : Tensor :=
  match r with
  | .ok pr => pr.newCPT
  | .error _ => n.CPT

/-- The tensor a `perturbCPT` call hands back to its caller (only when
`setCPT` is false and no exception was raised). -/
def retTensor (r : Except PyErr PerturbResult) : Option Tensor :=
  match r with
  | .ok pr => pr.ret
  | .error _ => none

/-- The game graph a `BestResponse` session owns (the fields of `SemiNFG`
the solver reads): the player list and the node list; `node_dict` and
`partition` are derived views keyed by node name and by owning player. -/
structure Game (V : Type) where
  players : List String
  nodes : List (DNode V)

/-- The keys of `node_dict`. -/
def gNames {V : Type} (g : Game V) : List String :=
  g.nodes.map (fun d => d.name)

/-- `G.node_dict[nm]`: the (first) node carrying the name. -/
def findNode {V : Type} (g : Game V) (nm : String) : Option (DNode V) :=
  g.nodes.find? (fun d => d.name == nm)

def hasNode {V : Type} (g : Game V) (nm : String) : Bool :=
  (findNode g nm).isSome

/-- `G.partition[p]`: the nodes controlled by player `p`. -/
def partition {V : Type} (g : Game V) (p : String) : List (DNode V) :=
  g.nodes.filter (fun d => d.player == p)

/-- Mutate the node called `nm` (attribute assignment on the shared node
object, reflected in every view of the graph). -/
def updNode {V : Type} (g : Game V) (nm : String) (f : DNode V → DNode V) : Game V :=
  { g with nodes := g.nodes.map (fun d => if d.name == nm then f d else d) }

/-- Assignment `store['Level' + str(l)] = t` on a level-store dict. -/
def setStore (st : ℕ → Option Tensor) (l : ℕ) (t : Tensor) : ℕ → Option Tensor :=
  fun l' => if l' = l then some t else st l'

/-- The `Level<l>` entry of the node called `nm`, when both exist. -/
def levelEntry {V : Type} (g : Game V) (nm : String) (l : ℕ) : Option Tensor :=
  (findNode g nm).bind (fun d => d.LevelCPT l)

def hasLevel {V : Type} (g : Game V) (nm : String) (l : ℕ) : Bool :=
  (levelEntry g nm l).isSome

/-- A Python value reached by the swap loop of `train_node`. Iterating the
dict `G.node_dict` yields its keys, which are strings — never the node
objects stored as its values. -/
inductive PyRef (V : Type) : Type where
  | str (s : String)
  | dnode (d : DNode V)

/-- What `for node in G.node_dict:` iterates over: the keys. -/
def dictIterKeys {V : Type} (g : Game V) : List (PyRef V) :=
  g.nodes.map (fun d => PyRef.str d.name)

/-- The check `type(node) is pynfg.classes.decisionnode.DecisionNode`. -/
def isDecisionNodeType {V : Type} : PyRef V → Bool
  | .dnode _ => true
  | .str _ => false

/-- One iteration of the CPT-swap loop of `train_node` (`bestresponse.py`
lines 90-96): the body runs only when the iterated value is a
`DecisionNode` instance; it then overwrites the node's live CPT with its
`Level<level-1>` entry, raising KeyError when that entry is missing. -/
def swapToLevel {V : Type} (level : ℕ) (sc : Game V) (ref : PyRef V) :
    Except PyErr (Game V) :=
  if isDecisionNodeType ref then
    match ref with
    | .dnode d =>
      match d.LevelCPT (level - 1) with
      | some t => .ok (updNode sc d.name (fun x => { x with CPT := t }))
      | none => .error (.keyError (level - 1))
    | .str _ => .ok sc
  else .ok sc

/-- Modelled from the spec: the pure-policy conversion utility
`convert_2_pureCPT` lives in `pynfg/utilities/utilities.py`, which is not
among the sources; per the spec it turns an expected-utility tensor into a
one-hot-per-configuration tensor selecting the arg-max action, ties broken
towards the first occurrence. -/
def convert_2_pureCPT (eu : Tensor) : Tensor :=
  eu.map (fun row => oneHot row.length ((argmaxIdx? row).getD 0))

/-- Method `BestResponse.train_node` (`bestresponse.py` lines 75-111),
non-logit branch, as a function of the external Monte Carlo estimator
`mceu` (consumed as a black box per the spec; `N`, `tol` and `delta` are
folded into it). The scratch graph is a deep copy of `self.G`; the swap
loop iterates the keys of the scratch `node_dict`; the lookup
`G.node_dict[nodename]` must succeed; the trained policy is stored under
`Level<level>` on `self.G` and promoted to the live CPT when `setC`. -/
def trainNode {V : Type} (mceu : Game V → String → Tensor) (g : Game V)
    (nodename : String) (level : ℕ) (setC : Bool) : Except PyErr (Game V) :=
  match pyFold (swapToLevel level) g (dictIterKeys g) with
  | .error e => .error e
  | .ok scratch =>
    match findNode scratch nodename with
    | none => .error (.nameKeyError nodename)
    | some _ =>
      let newP := convert_2_pureCPT (mceu scratch nodename)
      .ok (updNode g nodename (fun d =>
        { d with LevelCPT := setStore d.LevelCPT level newP,
                 CPT := if setC then newP else d.CPT }))

/-- Method `BestResponse.solve_game` (`bestresponse.py` lines 113-129):
for each level in `np.arange(1, high_level)` train every controlled node of
every player, then train exactly the nodes whose configured `Level` equals
`high_level`, then (under `setCPT`) promote each node's own-level entry
onto its live CPT. -/
def solve_game {V : Type} (mceu : Game V → String → Tensor) (g0 : Game V)
    (highLevel : ℕ) (setC : Bool) : Except PyErr (Game V) :=
  match pyFold (fun h level =>
      pyFold (fun h2 p =>
          pyFold (fun h3 c => trainNode mceu h3 c.name level false) h2 (partition h2 p))
        h h.players)
    g0 (List.range' 1 (highLevel - 1)) with
  | .error e => .error e
  | .ok g1 =>
    match pyFold (fun h2 p =>
        pyFold (fun h3 c =>
            if c.Level == highLevel then trainNode mceu h3 c.name highLevel false
            else .ok h3)
          h2 (partition h2 p))
      g1 g1.players with
    | .error e => .error e
    | .ok g2 =>
      if setC then
        pyFold (fun h2 p =>
            pyFold (fun h3 c =>
                match findNode h3 c.name with
                | none => .error (.nameKeyError c.name)
                | some nd =>
                  match nd.LevelCPT nd.Level with
                  | none => .error (.keyError nd.Level)
                  | some t => .ok (updNode h3 c.name (fun d => { d with CPT := t })))
              h2 (partition h2 p))
          g2 g2.players
      else .ok g2

/-- The `L0Dist` directive of one node in the configuration table. -/
inductive L0Dist : Type where
  | uniform
  | unspecified
  | tensor (t : Tensor)

/-- The body of `BestResponse._set_L0_CPT` (`bestresponse.py` lines 53-73)
for one node: a node already holding a `Level0` entry is skipped;
`'uniform'` stores a fresh uniform CPT; a missing directive warns and
stores the node's current CPT (`G.node_dict[nodename]` is the very node
being seeded); an explicit `np.ndarray` is stored directly — no shape
check of any kind is performed. -/
def seedNode {V : Type} (l0 : String → String → L0Dist) (nd : DNode V) : DNode V :=
  match nd.LevelCPT 0 with
  | some _ => nd
  | none =>
    match l0 nd.player nd.name with
    | .uniform => { nd with LevelCPT := setStore nd.LevelCPT 0 (uniformCPT nd.CPT) }
    | .unspecified => { nd with LevelCPT := setStore nd.LevelCPT 0 nd.CPT }
    | .tensor t => { nd with LevelCPT := setStore nd.LevelCPT 0 t }

/-- One player's pass of `_set_L0_CPT`: seed every node the player
controls (`for node in G.partition[player]`). -/
def seedPass {V : Type} (l0 : String → String → L0Dist) (p : String) (g : Game V) :
    Game V :=
  { g with nodes := g.nodes.map (fun d => if d.player == p then seedNode l0 d else d) }

/-- Method `BestResponse._set_L0_CPT`: for every player of the
configuration table, seed every node that player controls. -/
def set_L0_CPT {V : Type} (g : Game V) (psPlayers : List String)
    (l0 : String → String → L0Dist) : Game V :=
  psPlayers.foldl (fun h p => seedPass l0 p h) g

/-- The controlled node names in sweep order: players in list order, each
player's partition in node order. -/
def orderedNodeNames {V : Type} (g : Game V) : List String :=
  g.players.flatMap (fun p => (partition g p).map (fun d => d.name))

/-- Run a sequence of `train_node` calls (name, level) in order. -/
def trainMany {V : Type} (mceu : Game V → String → Tensor) (g : Game V)
    (evs : List (String × ℕ)) : Except PyErr (Game V) :=
  pyFold (fun h e => trainNode mceu h e.1 e.2 false) g evs

/-- The training schedule `solve_game` performs, read off statically from
the initial graph: a full synchronous sweep of every controlled node at
each level `1 ... high_level - 1`, followed by the nodes whose configured
level equals `high_level`. -/
def solveTrace {V : Type} (g : Game V) (highLevel : ℕ) : List (String × ℕ) :=
  (List.range' 1 (highLevel - 1)).flatMap
      (fun l => (orderedNodeNames g).map (fun nm => (nm, l)))
    ++ g.players.flatMap
      (fun p => ((partition g p).filter (fun d => d.Level == highLevel)).map
        (fun d => (d.name, highLevel)))

/-- Whether an `Except` result is a normal return. -/
def resultIsOk {α : Type} : Except PyErr α → Bool
  | .ok _ => true
  | .error _ => false

/-- The `Level<l>` entry of node `nm` in the graph a call returned. -/
def resultLevelEntry {V : Type} (r : Except PyErr (Game V)) (nm : String) (l : ℕ) :
    Option Tensor :=
  match r with
  | .ok g => levelEntry g nm l
  | .error _ => none

/-! Concrete instances used by the witnesses and counterexamples below. -/

/-- A parentless two-action node whose CPT `[1/2, 0]` is non-zero but not
normalized (its single trailing-axis row sums to `1/2`). -/
def nodeHalf : DNode ℤ :=
  { name := "D", player := "1", space := [0, 1], parents := [], value := 0,
    CPT := [[1/2, 0]] }

/-- A parentless two-action node with the uniform CPT `[1/2, 1/2]`. -/
def nodeUnif : DNode ℤ :=
  { name := "U", player := "1", space := [0, 1], parents := [], value := 0,
    CPT := [[1/2, 1/2]] }

/-- A parentless two-action node with the all-zero sentinel CPT. -/
def nodeZero : DNode ℤ :=
  { name := "Z", player := "1", space := [0, 1], parents := [], value := 0,
    CPT := [[0, 0]] }

/-- A node with one binary parent `C` and a pure `2 x 2` CPT. -/
def nodeSliv : DNode ℤ :=
  { name := "S", player := "1", space := [0, 1],
    parents := [("C", { space := [0, 1], value := 0 })], value := 0,
    CPT := [[1, 0], [0, 1]] }

/-- An estimator stub that reports the trained node's own live CPT in the
scratch graph — so the stored policy reveals which CPT the estimator saw. -/
def mceuPeek : Game ℤ → String → Tensor :=
  fun g nm => ((findNode g nm).map (fun d => d.CPT)).getD []

/-- A constant estimator stub. -/
def mceuConst : Game ℤ → String → Tensor :=
  fun _ _ => [[1, 0]]

/-- Decision node `D1`: live expected-utility-bearing CPT `[1, 3]` (arg-max
at index 1), and a `Level0` entry `[1, 0]` (arg-max at index 0) that
differs from the live CPT. -/
def nodeD1 : DNode ℤ :=
  { name := "D1", player := "1", space := [0, 1], parents := [], value := 0,
    CPT := [[1, 3]], Level := 1,
    LevelCPT := fun l => if l = 0 then some [[1, 0]] else none }

/-- Decision node `D2`: no `Level0` entry at all. -/
def nodeD2 : DNode ℤ :=
  { name := "D2", player := "2", space := [0, 1], parents := [], value := 0,
    CPT := [[1, 0]], Level := 2 }

/-- A two-player game in which `D2` still lacks its `Level0` policy. -/
def gBug : Game ℤ :=
  { players := ["1", "2"], nodes := [nodeD1, nodeD2] }

/-- Node `E1`, configured to target level 1, seeded with `Level0`. -/
def nodeE1 : DNode ℤ :=
  { name := "E1", player := "1", space := [0, 1], parents := [], value := 0,
    CPT := [[1, 0]], Level := 1,
    LevelCPT := fun l => if l = 0 then some [[1, 0]] else none }

/-- Node `E2`, configured to target level 2, seeded with `Level0`. -/
def nodeE2 : DNode ℤ :=
  { name := "E2", player := "2", space := [0, 1], parents := [], value := 0,
    CPT := [[0, 1]], Level := 2,
    LevelCPT := fun l => if l = 0 then some [[0, 1]] else none }

/-- A seeded two-player game with target levels `{1, 2}`. -/
def gSolve : Game ℤ :=
  { players := ["1", "2"], nodes := [nodeE1, nodeE2] }

/-- A one-node game whose node `E` awaits Level-0 seeding. -/
def nodeL0 : DNode ℤ :=
  { name := "E", player := "1", space := [0, 1], parents := [], value := 0,
    CPT := [[0, 0]] }

def gL0 : Game ℤ :=
  { players := ["1"], nodes := [nodeL0] }

/-- A configuration table supplying, for every node, an explicit prior
tensor whose shape `(1, 3)` disagrees with the `(1, 2)` CPT shape. -/
def l0Mismatch : String → String → L0Dist :=
  fun _ _ => .tensor [[1, 2, 3]]

/-!
Theorems. First, a library of auxiliary lemmas about the embedded
operations; the claim theorems follow at the end.
-/

theorem pyFold_append {α β : Type} (f : β → α → Except PyErr β) :
    ∀ (l1 l2 : List α) (b : β),
      pyFold f b (l1 ++ l2)
        = match pyFold f b l1 with
          | .ok b' => pyFold f b' l2
          | .error e => .error e := by
  intro l1
  induction l1 with
  | nil => intro l2 b; rfl
  | cons a as ih =>
    intro l2 b
    simp only [List.cons_append, pyFold]
    cases f b a with
    | ok b' => exact ih l2 b'
    | error e => rfl

theorem pyFold_map {α γ β : Type} (f : β → α → Except PyErr β) (g : γ → α) :
    ∀ (l : List γ) (b : β),
      pyFold f b (l.map g) = pyFold (fun b c => f b (g c)) b l := by
  intro l
  induction l with
  | nil => intro b; rfl
  | cons a as ih =>
    intro b
    simp only [List.map_cons, pyFold]
    cases f b (g a) with
    | ok b' => exact ih b'
    | error e => rfl

/-- The last element of a list, with default. -/
def lastD {α : Type} (d : α) : List α → α
  | [] => d
  | a :: t => lastD a t

theorem diffs_length : ∀ l : List ℚ, (diffs l).length = l.length - 1 := by
  intro l
  induction l with
  | nil => rfl
  | cons a t ih =>
    cases t with
    | nil => rfl
    | cons b t' => simpa [diffs] using ih

theorem diffs_sum_cons (l : List ℚ) :
    ∀ a : ℚ, (diffs (a :: l)).sum = lastD a l - a := by
  induction l with
  | nil => intro a; simp [diffs, lastD]
  | cons b t ih =>
    intro a
    simp only [diffs, List.sum_cons, ih b, lastD]
    ring

theorem sorted_le_lastD :
    ∀ (l : List ℕ), List.Sorted (· ≤ ·) l → ∀ x ∈ l, ∀ d, x ≤ lastD d l := by
  intro l
  induction l with
  | nil => intro _ x hx; cases hx
  | cons a t ih =>
    intro hs x hx d
    rcases List.sorted_cons.mp hs with ⟨hle, hst⟩
    simp only [lastD]
    rcases List.mem_cons.mp hx with rfl | hxt
    · cases t with
      | nil => simp [lastD]
      | cons c t' =>
        exact le_trans (hle c (List.mem_cons_self c t')) (ih hst c (List.mem_cons_self c t') x)
    · exact ih hst x hxt a

theorem sorted_headD_zero (l : List ℕ) (hs : List.Sorted (· ≤ ·) l) (h0 : 0 ∈ l) :
    ∀ d, l.headD d = 0 := by
  intro d
  cases l with
  | nil => cases h0
  | cons a t =>
    rcases List.sorted_cons.mp hs with ⟨hle, _⟩
    rcases List.mem_cons.mp h0 with rfl | h0t
    · rfl
    · simpa using Nat.le_zero.mp (hle 0 h0t)

theorem lastD_mem : ∀ (l : List ℕ) (a : ℕ), lastD a l ∈ a :: l := by
  intro l
  induction l with
  | nil => intro a; simp [lastD]
  | cons b t ih =>
    intro a
    simp only [lastD]
    rcases List.mem_cons.mp (ih b) with h | h
    · simp [h]
    · simp [List.mem_cons.mpr (Or.inr h)]

theorem sum_map_div (c : ℚ) : ∀ l : List ℚ, (l.map (fun d => d / c)).sum = l.sum / c := by
  intro l
  induction l with
  | nil => simp
  | cons a t ih =>
    simp only [List.map_cons, List.sum_cons, ih]
    ring

theorem headD_castQ : ∀ (l : List ℕ), (castQ l).headD 0 = ((l.headD 0 : ℕ) : ℚ) := by
  intro l
  cases l <;> simp [castQ]

theorem lastD_castQ : ∀ (l : List ℕ) (d : ℕ), lastD ((d : ℕ) : ℚ) (castQ l) = ((lastD d l : ℕ) : ℚ) := by
  intro l
  induction l with
  | nil => intro d; simp [castQ, lastD]
  | cons a t ih =>
    intro d
    simp only [castQ, List.map_cons, lastD]
    exact ih a

theorem diffs_sum_ne_nil (l : List ℚ) (h : l ≠ []) :
    (diffs l).sum = lastD 0 l - l.headD 0 := by
  cases l with
  | nil => cases h rfl
  | cons a t => simpa [lastD] using diffs_sum_cons t a

theorem simplexRow_sum (M : ℕ) (hM : M ≠ 0) (xs : List ℕ) (hxs : ∀ x ∈ xs, x ≤ M) :
    (simplexRow M xs).sum = 1 := by
  set L := List.insertionSort (· ≤ ·) (0 :: xs ++ [M]) with hL
  have hperm := List.perm_insertionSort (· ≤ ·) (0 :: xs ++ [M])
  have hsorted : List.Sorted (· ≤ ·) L := List.sorted_insertionSort (· ≤ ·) (0 :: xs ++ [M])
  have hmem : ∀ x, x ∈ L ↔ x ∈ 0 :: xs ++ [M] := fun x => hperm.mem_iff
  have h0 : 0 ∈ L := (hmem 0).mpr (List.mem_cons_self 0 _)
  have hMmem : M ∈ L := (hmem M).mpr (by simp)
  have hne : L ≠ [] := by
    intro h
    rw [h] at h0
    cases h0
  have hhead : L.headD 0 = 0 := sorted_headD_zero L hsorted h0 0
  have hlast : lastD 0 L = M := by
    have hge : M ≤ lastD 0 L := sorted_le_lastD L hsorted M hMmem 0
    have hmem2 : lastD 0 L ∈ 0 :: L := lastD_mem L 0
    have hle2 : lastD 0 L ≤ M := by
      rcases List.mem_cons.mp hmem2 with h | h
      · omega
      · rcases List.mem_cons.mp ((hmem _).mp h) with h' | h'
        · omega
        · rcases List.mem_append.mp h' with h'' | h''
          · exact hxs _ h''
          · simp only [List.mem_singleton] at h''
            omega
    omega
  have hmapne : castQ L ≠ [] := by
    intro h
    rw [castQ] at h
    exact hne (List.map_eq_nil_iff.mp h)
  have hcast0 : lastD (0 : ℚ) (castQ L) = ((lastD 0 L : ℕ) : ℚ) := by
    simpa using lastD_castQ L 0
  rw [simplexRow, ← hL, sum_map_div, diffs_sum_ne_nil _ hmapne,
    headD_castQ, hcast0, hhead, hlast]
  rw [Nat.cast_zero, sub_zero, div_self]
  exact_mod_cast hM

theorem sum_map_constQ : ∀ (l : List ℚ) (c : ℚ), (l.map (fun _ => c)).sum = l.length * c := by
  intro l
  induction l with
  | nil => intro c; simp
  | cons a t ih =>
    intro c
    simp only [List.map_cons, List.sum_cons, ih, List.length_cons]
    push_cast
    ring

theorem simplexRow_length (M : ℕ) (xs : List ℕ) :
    (simplexRow M xs).length = xs.length + 1 := by
  simp only [simplexRow, List.length_map, diffs_length, castQ,
    List.length_insertionSort, List.length_cons, List.length_append]
  simp

theorem blendRow_sum (ν : ℚ) : ∀ (a b : List ℚ), a.length = b.length →
    (blendRow ν a b).sum = a.sum * (1 - ν) + b.sum * ν := by
  intro a
  induction a with
  | nil =>
    intro b h
    cases b with
    | nil => simp [blendRow]
    | cons y ys => simp at h
  | cons x xs ih =>
    intro b h
    cases b with
    | nil => simp at h
    | cons y ys =>
      have hlen : xs.length = ys.length := by simpa using h
      simp only [blendRow, List.zipWith_cons_cons, List.sum_cons] at *
      rw [ih ys hlen]
      ring

theorem blendRow_zero : ∀ (a b : List ℚ), a.length ≤ b.length → blendRow 0 a b = a := by
  intro a
  induction a with
  | nil => intro b _; rfl
  | cons x xs ih =>
    intro b h
    cases b with
    | nil => simp at h
    | cons y ys =>
      have hlen : xs.length ≤ ys.length := by simpa using h
      simp only [blendRow, List.zipWith_cons_cons, List.cons.injEq]
      refine ⟨by ring, ?_⟩
      simpa [blendRow] using ih ys hlen

theorem mem_zipWith {α β γ : Type} (f : α → β → γ) :
    ∀ (l1 : List α) (l2 : List β), ∀ r ∈ List.zipWith f l1 l2,
      ∃ x ∈ l1, ∃ y ∈ l2, r = f x y := by
  intro l1
  induction l1 with
  | nil => intro l2 r hr; simp at hr
  | cons x xs ih =>
    intro l2 r hr
    cases l2 with
    | nil => simp at hr
    | cons y ys =>
      rw [List.zipWith_cons_cons] at hr
      rcases List.mem_cons.mp hr with rfl | hr'
      · exact ⟨x, List.mem_cons_self x xs, y, List.mem_cons_self y ys, rfl⟩
      · rcases ih ys r hr' with ⟨x', hx', y', hy', rfl⟩
        exact ⟨x', List.mem_cons.mpr (Or.inr hx'), y', List.mem_cons.mpr (Or.inr hy'), rfl⟩

theorem randomCPT_mixed_row (t : Tensor) (ys : List ℕ) (xss : List (List ℕ)) :
    ∀ r ∈ randomCPT t true ys xss, ∃ xs ∈ xss, r = simplexRow M100 xs := by
  intro r hr
  simp only [randomCPT, if_neg (by simp : ¬(true = false))] at hr
  rcases List.mem_map.mp hr with ⟨xs, hxs, rfl⟩
  exact ⟨xs, hxs, rfl⟩

theorem simplexRow_sum_M100 (xs : List ℕ) (h : ∀ x ∈ xs, x ≤ M100) :
    (simplexRow M100 xs).sum = 1 :=
  simplexRow_sum M100 (by decide) xs h

theorem zipWith_blend_zero :
    ∀ (t rt : Tensor), (∀ p ∈ t.zip rt, p.1.length ≤ p.2.length) →
      t.length ≤ rt.length → List.zipWith (blendRow 0) t rt = t := by
  intro t
  induction t with
  | nil => intro rt _ _; rfl
  | cons a t' ih =>
    intro rt hp hl
    cases rt with
    | nil => simp at hl
    | cons b rt' =>
      rw [List.zipWith_cons_cons]
      have h1 : a.length ≤ b.length := hp (a, b) (by simp)
      have h2 : ∀ p ∈ t'.zip rt', p.1.length ≤ p.2.length := by
        intro p hmem
        exact hp p (List.mem_cons.mpr (Or.inr hmem))
      rw [blendRow_zero a b h1, ih rt' h2 (by simpa using hl)]

theorem set_of_get?_eq {α : Type} : ∀ (l : List α) (i : ℕ) (a : α),
    l.get? i = some a → l.set i a = l := by
  intro l
  induction l with
  | nil => intro i a h; cases h
  | cons x xs ih =>
    intro i a h
    cases i with
    | zero =>
      simp only [List.get?] at h
      cases h
      rfl
    | succ j =>
      simp only [List.get?] at h
      simp [ih j a h]

/-- C2: for every parent configuration, the trailing-axis row of the CPT
produced by `uniformCPT`, by `randomCPT(mixed=True)`, and by
`perturbCPT(mixed=True)` applied to a CPT whose rows already sum to 1, sums
to exactly 1 under exact rational arithmetic. The shape hypotheses record
what numpy guarantees structurally (equal row lengths, and the sizes of the
`randint(1, M)` sample array); the bound records `randint(1, M) < M ≤ M`. -/
theorem cpt_trailing_sums_one (V : Type) [DecidableEq V] :
    (∀ t : Tensor, (∀ r ∈ t, r.length = shapeLast t) → shapeLast t ≠ 0 →
        ∀ r ∈ uniformCPT t, r.sum = 1)
    ∧ (∀ (t : Tensor) (ys : List ℕ) (xss : List (List ℕ)),
        (∀ xs ∈ xss, ∀ x ∈ xs, x ≤ M100) →
        ∀ r ∈ randomCPT t true ys xss, r.sum = 1)
    ∧ (∀ (n : DNode V) (noise : ℚ) (sliver : List (String × V)) (setC : Bool)
        (ys : List ℕ) (xss : List (List ℕ)) (coins : List ℚ),
        (∀ r ∈ n.CPT, r.sum = 1) →
        (∀ r ∈ n.CPT, r.length = shapeLast n.CPT) →
        (∀ xs ∈ xss, xs.length = shapeLast n.CPT - 1) →
        (∀ xs ∈ xss, ∀ x ∈ xs, x ≤ M100) →
        shapeLast n.CPT ≠ 0 →
        (∀ r ∈ cptAfter n (perturbCPT n noise true sliver setC ys xss coins), r.sum = 1)
        ∧ (∀ z, retTensor (perturbCPT n noise true sliver setC ys xss coins) = some z →
            ∀ r ∈ z, r.sum = 1)) := by
  refine ⟨?_, ?_, ?_⟩
  · intro t hlen hk r hr
    rcases List.mem_map.mp hr with ⟨r0, hr0, rfl⟩
    rw [sum_map_constQ, hlen r0 hr0]
    rw [mul_one_div, div_self]
    exact_mod_cast hk
  · intro t ys xss hb r hr
    rcases randomCPT_mixed_row t ys xss r hr with ⟨xs, hxs, rfl⟩
    exact simplexRow_sum_M100 xs (hb xs hxs)
  · intro n noise sliver setC ys xss coins hsum hlen hxlen hbound hk
    have hrand : ∀ b ∈ randomCPT n.CPT true ys xss,
        b.sum = 1 ∧ b.length = shapeLast n.CPT := by
      intro b hb
      rcases randomCPT_mixed_row n.CPT ys xss b hb with ⟨xs, hxs, rfl⟩
      refine ⟨simplexRow_sum_M100 xs (hbound xs hxs), ?_⟩
      rw [simplexRow_length, hxlen xs hxs]
      omega
    have hz : ∀ r ∈ List.zipWith (blendRow noise) n.CPT (randomCPT n.CPT true ys xss),
        r.sum = 1 := by
      intro r hr
      rcases mem_zipWith (blendRow noise) n.CPT (randomCPT n.CPT true ys xss) r hr with
        ⟨a, ha, b, hb, rfl⟩
      rw [blendRow_sum noise a b (by rw [hlen a ha, (hrand b hb).2]),
        hsum a ha, (hrand b hb).1]
      ring
    cases hemp : sliver.isEmpty with
    | true =>
      have hred : perturbCPT n noise true sliver setC ys xss coins
          = .ok ⟨if setC then List.zipWith (blendRow noise) n.CPT (randomCPT n.CPT true ys xss)
                 else n.CPT,
                 if setC then none
                 else some (List.zipWith (blendRow noise) n.CPT (randomCPT n.CPT true ys xss))⟩ := by
        simp [perturbCPT, hemp]
      rw [hred]
      constructor
      · intro r hr
        cases setC with
        | true => exact hz r (by simpa [cptAfter] using hr)
        | false => exact hsum r (by simpa [cptAfter] using hr)
      · intro z hzeq r hr
        cases setC with
        | true => simp [retTensor] at hzeq
        | false =>
          simp only [retTensor, if_neg (by simp : ¬False)] at hzeq
          simp at hzeq
          subst hzeq
          exact hz r hr
    | false =>
      cases h1 : resolveParents n.parents sliver with
      | error e =>
        have hred : perturbCPT n noise true sliver setC ys xss coins = .error e := by
          simp [perturbCPT, hemp, h1]
        rw [hred]
        exact ⟨fun r hr => hsum r (by simpa [cptAfter] using hr),
          fun z hzeq => by simp [retTensor] at hzeq⟩
      | ok ind =>
        cases h2 : n.CPT.get? (flatIndex (parentSizes n.parents) ind) with
        | none =>
          have h2' : n.CPT[flatIndex (parentSizes n.parents) ind]? = none := by
            rw [← List.get?_eq_getElem?]
            exact h2
          have hred : perturbCPT n noise true sliver setC ys xss coins
              = .error .indexError := by
            simp [perturbCPT, hemp, h1, h2']
          rw [hred]
          exact ⟨fun r hr => hsum r (by simpa [cptAfter] using hr),
            fun z hzeq => by simp [retTensor] at hzeq⟩
        | some zrow =>
          have h2' : n.CPT[flatIndex (parentSizes n.parents) ind]? = some zrow := by
            rw [← List.get?_eq_getElem?]
            exact h2
          cases h3 : (randomCPT n.CPT true ys xss).get?
              (flatIndex (parentSizes n.parents) ind) with
          | none =>
            have h3' : (randomCPT n.CPT true ys xss)[flatIndex (parentSizes n.parents) ind]?
                = none := by
              rw [← List.get?_eq_getElem?]
              exact h3
            have hred : perturbCPT n noise true sliver setC ys xss coins
                = .error .indexError := by
              simp [perturbCPT, hemp, h1, h2', h3']
            rw [hred]
            exact ⟨fun r hr => hsum r (by simpa [cptAfter] using hr),
              fun z hzeq => by simp [retTensor] at hzeq⟩
          | some rrow =>
            have h3' : (randomCPT n.CPT true ys xss)[flatIndex (parentSizes n.parents) ind]?
                = some rrow := by
              rw [← List.get?_eq_getElem?]
              exact h3
            have hblend : (blendRow noise zrow rrow).sum = 1 := by
              have hzmem : zrow ∈ n.CPT := List.get?_mem h2
              have hrmem := hrand rrow (List.get?_mem h3)
              rw [blendRow_sum noise zrow rrow (by rw [hlen zrow hzmem, hrmem.2]),
                hsum zrow hzmem, hrmem.1]
              ring
            have hsetrows : ∀ r ∈ n.CPT.set (flatIndex (parentSizes n.parents) ind)
                (blendRow noise zrow rrow), r.sum = 1 := by
              intro r hr
              rcases List.mem_or_eq_of_mem_set hr with hmem | rfl
              · exact hsum r hmem
              · exact hblend
            have hred : perturbCPT n noise true sliver setC ys xss coins
                = .ok ⟨n.CPT.set (flatIndex (parentSizes n.parents) ind)
                        (blendRow noise zrow rrow),
                       if setC then none
                       else some (n.CPT.set (flatIndex (parentSizes n.parents) ind)
                        (blendRow noise zrow rrow))⟩ := by
              simp [perturbCPT, hemp, h1, h2', h3']
            rw [hred]
            refine ⟨fun r hr => hsetrows r (by simpa [cptAfter] using hr), ?_⟩
            intro z hzeq r hr
            cases setC with
            | true => simp [retTensor] at hzeq
            | false =>
              simp [retTensor] at hzeq
              subst hzeq
              exact hsetrows r hr

/-- C2, witness: the three parts of `cpt_trailing_sums_one` applied to the
concrete node `nodeUnif` (uniform `[1/2, 1/2]` CPT) with the mixed draw
`xss = [[7]]`. -/
theorem cpt_trailing_sums_one_witness :
    (∀ r ∈ uniformCPT nodeUnif.CPT, r.sum = 1)
    ∧ (∀ r ∈ randomCPT nodeUnif.CPT true [] [[7]], r.sum = 1)
    ∧ (∀ r ∈ cptAfter nodeUnif (perturbCPT nodeUnif (1/3) true [] false [] [[7]] []),
        r.sum = 1) := by
  have hlen : ∀ r ∈ nodeUnif.CPT, r.length = shapeLast nodeUnif.CPT := by
    intro r hr
    simp [nodeUnif, shapeLast] at hr ⊢
    rw [hr]
    rfl
  have hk : shapeLast nodeUnif.CPT ≠ 0 := by decide
  have hsum : ∀ r ∈ nodeUnif.CPT, r.sum = 1 := by
    intro r hr
    simp [nodeUnif] at hr
    rw [hr]
    norm_num
  have hb : ∀ xs ∈ [[7]], ∀ x ∈ xs, x ≤ M100 := by decide
  have hxlen : ∀ xs ∈ ([[7]] : List (List ℕ)), xs.length = shapeLast nodeUnif.CPT - 1 := by
    decide
  refine ⟨(cpt_trailing_sums_one ℤ).1 nodeUnif.CPT hlen hk,
    (cpt_trailing_sums_one ℤ).2.1 nodeUnif.CPT [] [[7]] hb,
    ((cpt_trailing_sums_one ℤ).2.2 nodeUnif (1/3) [] false [] [[7]] []
      hsum hlen hxlen hb hk).1⟩

/-- C7: for every node, every noise value, every sliver and every setting of
`setCPT`, a pure-mode `perturbCPT` call raises an exception (TypeError from
`xrange(float)` without a sliver, UnboundLocalError with one), never
completes, and leaves the live CPT untouched: it neither no-ops silently
nor stores partially-shifted rows. -/
theorem perturbCPT_pure_always_fails (V : Type) [DecidableEq V] (n : DNode V)
    (noise : ℚ) (sliver : List (String × V)) (setC : Bool) (ys : List ℕ)
    (xss : List (List ℕ)) (coins : List ℚ) :
    perturbCPT n noise false sliver setC ys xss coins
      = .error (if sliver.isEmpty then .typeError else .unboundLocal)
    ∧ cptAfter n (perturbCPT n noise false sliver setC ys xss coins) = n.CPT
    ∧ retTensor (perturbCPT n noise false sliver setC ys xss coins) = none := by
  have h : perturbCPT n noise false sliver setC ys xss coins
      = .error (if sliver.isEmpty then .typeError else .unboundLocal) := by
    cases hemp : sliver.isEmpty with
    | true => simp [perturbCPT, hemp, pyXrange]
    | false => simp [perturbCPT, hemp]
  refine ⟨h, ?_, ?_⟩
  · rw [h]
    rfl
  · rw [h]
    rfl

/-- C9: with `noise = 0`, a mixed-mode `perturbCPT` leaves the live CPT
numerically unchanged (exactly, in rational arithmetic), whether the whole
tensor or a single sliver is perturbed, and any returned tensor equals the
unchanged CPT. The shape hypotheses record what numpy guarantees for the
internally drawn random CPT (same shape as `self.CPT`). -/
theorem perturbCPT_zero_noise_unchanged (V : Type) [DecidableEq V] (n : DNode V)
    (sliver : List (String × V)) (setC : Bool) (ys : List ℕ)
    (xss : List (List ℕ)) (coins : List ℚ)
    (hlen : ∀ r ∈ n.CPT, r.length = shapeLast n.CPT)
    (hxlen : xss.length = n.CPT.length)
    (hxslen : ∀ xs ∈ xss, xs.length = shapeLast n.CPT - 1)
    (hk : shapeLast n.CPT ≠ 0) :
    cptAfter n (perturbCPT n 0 true sliver setC ys xss coins) = n.CPT
    ∧ (∀ z, retTensor (perturbCPT n 0 true sliver setC ys xss coins) = some z →
        z = n.CPT) := by
  have hrandlen : ∀ b ∈ randomCPT n.CPT true ys xss, b.length = shapeLast n.CPT := by
    intro b hb
    rcases randomCPT_mixed_row n.CPT ys xss b hb with ⟨xs, hxs, rfl⟩
    rw [simplexRow_length, hxslen xs hxs]
    omega
  have hrlen : n.CPT.length ≤ (randomCPT n.CPT true ys xss).length := by
    simp only [randomCPT, if_neg (by simp : ¬(true = false)), List.length_map]
    omega
  have hzip : List.zipWith (blendRow 0) n.CPT (randomCPT n.CPT true ys xss) = n.CPT := by
    refine zipWith_blend_zero n.CPT (randomCPT n.CPT true ys xss) ?_ hrlen
    intro p hp
    rcases List.of_mem_zip hp with ⟨hp1, hp2⟩
    rw [hlen p.1 hp1, hrandlen p.2 hp2]
  cases hemp : sliver.isEmpty with
  | true =>
    have hred : perturbCPT n 0 true sliver setC ys xss coins
        = .ok ⟨if setC then List.zipWith (blendRow 0) n.CPT (randomCPT n.CPT true ys xss)
               else n.CPT,
               if setC then none
               else some (List.zipWith (blendRow 0) n.CPT (randomCPT n.CPT true ys xss))⟩ := by
      simp [perturbCPT, hemp]
    rw [hred]
    constructor
    · cases setC with
      | true => simp [cptAfter, hzip]
      | false => simp [cptAfter]
    · intro z hz
      cases setC with
      | true => simp [retTensor] at hz
      | false =>
        simp [retTensor] at hz
        rw [← hz, hzip]
  | false =>
    cases h1 : resolveParents n.parents sliver with
    | error e =>
      have hred : perturbCPT n 0 true sliver setC ys xss coins = .error e := by
        simp [perturbCPT, hemp, h1]
      rw [hred]
      exact ⟨rfl, fun z hz => by simp [retTensor] at hz⟩
    | ok ind =>
      cases h2 : n.CPT.get? (flatIndex (parentSizes n.parents) ind) with
      | none =>
        have h2' : n.CPT[flatIndex (parentSizes n.parents) ind]? = none := by
          rw [← List.get?_eq_getElem?]
          exact h2
        have hred : perturbCPT n 0 true sliver setC ys xss coins = .error .indexError := by
          simp [perturbCPT, hemp, h1, h2']
        rw [hred]
        exact ⟨rfl, fun z hz => by simp [retTensor] at hz⟩
      | some zrow =>
        have h2' : n.CPT[flatIndex (parentSizes n.parents) ind]? = some zrow := by
          rw [← List.get?_eq_getElem?]
          exact h2
        cases h3 : (randomCPT n.CPT true ys xss).get?
            (flatIndex (parentSizes n.parents) ind) with
        | none =>
          have h3' : (randomCPT n.CPT true ys xss)[flatIndex (parentSizes n.parents) ind]?
              = none := by
            rw [← List.get?_eq_getElem?]
            exact h3
          have hred : perturbCPT n 0 true sliver setC ys xss coins = .error .indexError := by
            simp [perturbCPT, hemp, h1, h2', h3']
          rw [hred]
          exact ⟨rfl, fun z hz => by simp [retTensor] at hz⟩
        | some rrow =>
          have h3' : (randomCPT n.CPT true ys xss)[flatIndex (parentSizes n.parents) ind]?
              = some rrow := by
            rw [← List.get?_eq_getElem?]
            exact h3
          have hbl : blendRow 0 zrow rrow = zrow := by
            refine blendRow_zero zrow rrow ?_
            rw [hlen zrow (List.get?_mem h2), hrandlen rrow (List.get?_mem h3)]
          have hset : n.CPT.set (flatIndex (parentSizes n.parents) ind)
              (blendRow 0 zrow rrow) = n.CPT := by
            rw [hbl]
            exact set_of_get?_eq n.CPT (flatIndex (parentSizes n.parents) ind) zrow h2
          have hred : perturbCPT n 0 true sliver setC ys xss coins
              = .ok ⟨n.CPT.set (flatIndex (parentSizes n.parents) ind) (blendRow 0 zrow rrow),
                     if setC then none
                     else some (n.CPT.set (flatIndex (parentSizes n.parents) ind)
                      (blendRow 0 zrow rrow))⟩ := by
            simp [perturbCPT, hemp, h1, h2', h3']
          rw [hred]
          constructor
          · simp [cptAfter, hset]
          · intro z hz
            cases setC with
            | true => simp [retTensor] at hz
            | false =>
              simp [retTensor] at hz
              rw [← hz, hset]

/-- C9, witness: `perturbCPT_zero_noise_unchanged` applied to the concrete
node `nodeSliv` with the sliver `{C: 1}` and draws `xss = [[3], [5]]`. -/
theorem perturbCPT_zero_noise_unchanged_witness :
    cptAfter nodeSliv (perturbCPT nodeSliv 0 true [("C", 1)] false [] [[3], [5]] [])
      = nodeSliv.CPT :=
  (perturbCPT_zero_noise_unchanged ℤ nodeSliv [("C", 1)] false [] [[3], [5]] []
    (by decide) (by decide) (by decide) (by decide)).1

/-- C10: a mixed-mode `perturbCPT` with a non-empty sliver mutates the
node's live CPT in place at the resolved parent-configuration row even when
`setCPT` is false — the working tensor aliases `self.CPT` — and the value
handed back to the caller is that same mutated tensor rather than an
independent perturbed copy of the original. -/
theorem perturbCPT_sliver_mutates_in_place (V : Type) [DecidableEq V] (n : DNode V)
    (noise : ℚ) (sliver : List (String × V)) (setC : Bool) (ys : List ℕ)
    (xss : List (List ℕ)) (coins : List ℚ) (pr : PerturbResult)
    (hs : sliver ≠ [])
    (hok : perturbCPT n noise true sliver setC ys xss coins = .ok pr) :
    ∃ ind zrow rrow,
      resolveParents n.parents sliver = .ok ind
      ∧ n.CPT.get? (flatIndex (parentSizes n.parents) ind) = some zrow
      ∧ (randomCPT n.CPT true ys xss).get? (flatIndex (parentSizes n.parents) ind)
          = some rrow
      ∧ pr.newCPT = n.CPT.set (flatIndex (parentSizes n.parents) ind)
          (blendRow noise zrow rrow)
      ∧ pr.ret = (if setC then none else some pr.newCPT)
      ∧ cptAfter n (perturbCPT n noise true sliver setC ys xss coins) = pr.newCPT := by
  have hemp : sliver.isEmpty = false := by
    cases sliver with
    | nil => cases hs rfl
    | cons a t => rfl
  have hca : cptAfter n (perturbCPT n noise true sliver setC ys xss coins) = pr.newCPT := by
    rw [hok]
    rfl
  cases h1 : resolveParents n.parents sliver with
  | error e =>
    rw [perturbCPT] at hok
    simp [hemp, h1] at hok
  | ok ind =>
    cases h2 : n.CPT.get? (flatIndex (parentSizes n.parents) ind) with
    | none =>
      have h2' : n.CPT[flatIndex (parentSizes n.parents) ind]? = none := by
        rw [← List.get?_eq_getElem?]
        exact h2
      rw [perturbCPT] at hok
      simp [hemp, h1, h2'] at hok
    | some zrow =>
      have h2' : n.CPT[flatIndex (parentSizes n.parents) ind]? = some zrow := by
        rw [← List.get?_eq_getElem?]
        exact h2
      cases h3 : (randomCPT n.CPT true ys xss).get?
          (flatIndex (parentSizes n.parents) ind) with
      | none =>
        have h3' : (randomCPT n.CPT true ys xss)[flatIndex (parentSizes n.parents) ind]?
            = none := by
          rw [← List.get?_eq_getElem?]
          exact h3
        rw [perturbCPT] at hok
        simp [hemp, h1, h2', h3'] at hok
      | some rrow =>
        have h3' : (randomCPT n.CPT true ys xss)[flatIndex (parentSizes n.parents) ind]?
            = some rrow := by
          rw [← List.get?_eq_getElem?]
          exact h3
        rw [perturbCPT] at hok
        simp [hemp, h1, h2', h3'] at hok
        subst hok
        exact ⟨ind, zrow, rrow, rfl, h2, h3, rfl, rfl, hca⟩

/-- C10, witness: `perturbCPT_sliver_mutates_in_place` applied to
`nodeSliv` with sliver `{C: 0}`, noise 1 and `setCPT = False`: the live CPT
after the call is the mutated tensor `[[0, 1], [0, 1]]`, different from the
original `[[1, 0], [0, 1]]`, and that same tensor was returned. -/
theorem perturbCPT_sliver_mutates_in_place_witness :
    (([("C", (0 : ℤ))] : List (String × ℤ)) ≠ []
      ∧ (⟨[[0, 1], [0, 1]], some [[0, 1], [0, 1]]⟩ : PerturbResult).newCPT ≠ nodeSliv.CPT)
    ∧ (∃ ind zrow rrow,
        resolveParents nodeSliv.parents [("C", (0 : ℤ))] = .ok ind
        ∧ nodeSliv.CPT.get? (flatIndex (parentSizes nodeSliv.parents) ind) = some zrow
        ∧ (randomCPT nodeSliv.CPT true [] [[0], [0]]).get?
            (flatIndex (parentSizes nodeSliv.parents) ind) = some rrow
        ∧ (⟨[[0, 1], [0, 1]], some [[0, 1], [0, 1]]⟩ : PerturbResult).newCPT
            = nodeSliv.CPT.set (flatIndex (parentSizes nodeSliv.parents) ind)
              (blendRow 1 zrow rrow)
        ∧ (⟨[[0, 1], [0, 1]], some [[0, 1], [0, 1]]⟩ : PerturbResult).ret
            = (if false then none
               else some (⟨[[0, 1], [0, 1]], some [[0, 1], [0, 1]]⟩ : PerturbResult).newCPT)
        ∧ cptAfter nodeSliv (perturbCPT nodeSliv 1 true [("C", (0 : ℤ))] false [] [[0], [0]] [])
            = (⟨[[0, 1], [0, 1]], some [[0, 1], [0, 1]]⟩ : PerturbResult).newCPT) := by
  have hok : perturbCPT nodeSliv 1 true [("C", (0 : ℤ))] false [] [[0], [0]] []
      = .ok ⟨[[0, 1], [0, 1]], some [[0, 1], [0, 1]]⟩ := by
    norm_num [perturbCPT, nodeSliv, resolveParents, idxOf?, parentSizes, flatIndex,
      randomCPT, simplexRow, castQ, M100, diffs, blendRow, Except.map,
      List.insertionSort, List.orderedInsert]
  refine ⟨⟨by decide, by decide⟩, ?_⟩
  exact perturbCPT_sliver_mutates_in_place ℤ nodeSliv 1 [("C", (0 : ℤ))] false []
    [[0], [0]] [] ⟨[[0, 1], [0, 1]], some [[0, 1], [0, 1]]⟩ (by decide) hok

theorem resolveParents_err {V : Type} [DecidableEq V] :
    ∀ (ps : List (String × PNode V)) (input : List (String × V)) (e : PyErr),
      resolveParents ps input = .error e → e = .valueNotInList := by
  intro ps
  induction ps with
  | nil => intro input e h; simp [resolveParents] at h
  | cons pr rest ih =>
    intro input e h
    simp only [resolveParents] at h
    cases hidx : idxOf? pr.2.space ((input.lookup pr.1).getD pr.2.value) with
    | some i =>
      rw [hidx] at h
      cases hrec : resolveParents rest input with
      | ok is =>
        rw [hrec] at h
        simp [Except.map] at h
      | error e' =>
        rw [hrec] at h
        simp only [Except.map] at h
        cases h
        exact ih input e hrec
    | none =>
      rw [hidx] at h
      cases h
      rfl

theorem cumsum_length : ∀ l : List ℚ, (cumsum l).length = l.length := by
  intro l
  induction l with
  | nil => rfl
  | cons x xs ih => simp [cumsum, ih]

theorem mem_cumsum_sum : ∀ l : List ℚ, l ≠ [] → ∃ c ∈ cumsum l, c = l.sum := by
  intro l
  induction l with
  | nil => intro h; cases h rfl
  | cons x xs ih =>
    intro _
    by_cases hxs : xs = []
    · subst hxs
      exact ⟨x, by simp [cumsum], by simp⟩
    · rcases ih hxs with ⟨c, hc, hcs⟩
      refine ⟨x + c, ?_, by simp [hcs]⟩
      simp only [cumsum, List.mem_cons]
      exact Or.inr (List.mem_map.mpr ⟨c, hc, rfl⟩)

theorem firstGE_some : ∀ (cs : List ℚ) (u : ℚ), (∃ c ∈ cs, u ≤ c) →
    ∃ i, firstGE u cs = some i := by
  intro cs
  induction cs with
  | nil =>
    intro u h
    rcases h with ⟨c, hc, _⟩
    cases hc
  | cons c cs' ih =>
    intro u h
    by_cases hu : u ≤ c
    · exact ⟨0, by simp [firstGE, hu]⟩
    · rcases h with ⟨c', hc', hcu⟩
      rcases List.mem_cons.mp hc' with rfl | hmem
      · exact absurd hcu hu
      · rcases ih u ⟨c', hmem, hcu⟩ with ⟨j, hj⟩
        exact ⟨j + 1, by simp [firstGE, hu, hj]⟩

theorem firstGE_spec : ∀ (cs : List ℚ) (u : ℚ) (i : ℕ), firstGE u cs = some i →
    i < cs.length ∧ u ≤ cs.getD i 0 ∧ ∀ j < i, cs.getD j 0 < u := by
  intro cs
  induction cs with
  | nil => intro u i h; simp [firstGE] at h
  | cons c cs' ih =>
    intro u i h
    by_cases hu : u ≤ c
    · simp only [firstGE, if_pos hu] at h
      cases h
      exact ⟨by simp, by simpa using hu, by intro j hj; omega⟩
    · simp only [firstGE, if_neg hu] at h
      rcases Option.map_eq_some'.mp h with ⟨j, hj, rfl⟩
      rcases ih u j hj with ⟨hlt, hge, hstrict⟩
      refine ⟨by simpa using Nat.succ_lt_succ hlt, by simpa using hge, ?_⟩
      intro j' hj'
      cases j' with
      | zero => simpa using lt_of_not_le hu
      | succ j'' =>
        simp only [List.getD_cons_succ]
        exact hstrict j'' (by omega)

theorem argmaxIdx?_none : ∀ l : List ℚ, argmaxIdx? l = none → l = [] := by
  intro l h
  cases l with
  | nil => rfl
  | cons x xs =>
    cases hxs : argmaxIdx? xs with
    | none => simp [argmaxIdx?, hxs] at h
    | some j =>
      simp only [argmaxIdx?, hxs] at h
      split at h <;> cases h

theorem argmaxIdx?_spec : ∀ (l : List ℚ) (m : ℕ), argmaxIdx? l = some m →
    m < l.length ∧ (∀ j < l.length, l.getD j 0 ≤ l.getD m 0)
      ∧ (∀ j < m, l.getD j 0 < l.getD m 0) := by
  intro l
  induction l with
  | nil => intro m h; simp [argmaxIdx?] at h
  | cons x xs ih =>
    intro m h
    cases hxs : argmaxIdx? xs with
    | none =>
      have hnil := argmaxIdx?_none xs hxs
      subst hnil
      simp only [argmaxIdx?] at h
      cases h
      refine ⟨by simp, ?_, by intro j hj; omega⟩
      intro j hj
      have : j = 0 := by simpa using hj
      subst this
      simp
    | some j =>
      simp only [argmaxIdx?, hxs] at h
      rcases ih j hxs with ⟨hj1, hj2, hj3⟩
      by_cases hcomp : x < xs.getD j 0
      · rw [if_pos hcomp] at h
        cases h
        refine ⟨by simpa using Nat.succ_lt_succ hj1, ?_, ?_⟩
        · intro j' hj'
          cases j' with
          | zero => simpa using le_of_lt hcomp
          | succ j'' =>
            simp only [List.getD_cons_succ]
            exact hj2 j'' (by simpa using hj')
        · intro j' hj'
          cases j' with
          | zero => simpa using hcomp
          | succ j'' =>
            simp only [List.getD_cons_succ]
            exact hj3 j'' (by omega)
      · rw [if_neg hcomp] at h
        cases h
        push_neg at hcomp
        refine ⟨by simp, ?_, by intro j' hj'; omega⟩
        intro j' hj'
        cases j' with
        | zero => simp
        | succ j'' =>
          simp only [List.getD_cons_zero, List.getD_cons_succ]
          exact le_trans (hj2 j'' (by simpa using hj')) hcomp

theorem argmaxIdx?_total : ∀ l : List ℚ, l ≠ [] → ∃ m, argmaxIdx? l = some m := by
  intro l h
  cases hl : argmaxIdx? l with
  | none => exact absurd (argmaxIdx?_none l hl) h
  | some m => exact ⟨m, rfl⟩

theorem get?_some_of_lt {α : Type} : ∀ (l : List α) (i : ℕ), i < l.length →
    ∃ a, l.get? i = some a := by
  intro l i h
  cases hg : l.get? i with
  | none =>
    rw [List.get?_eq_none] at hg
    omega
  | some a => exact ⟨a, rfl⟩

/-- C4, amended: on a non-zero CPT whose resolved trailing-axis slice is a
normalized distribution, `draw_value` with `mode=False` returns the space
element at the first index whose cumulative sum reaches the draw
`u ∈ [0, 1)`, and with `mode=True` deterministically returns the space
element at the arg-max index of the slice (ties to the first occurrence);
in both cases the returned value is a member of the node's space. (The
original claim, quantifying over all non-zero CPTs, is refuted by
`draw_value_nonzero_cpt_cex`: when the resolved slice's total mass stays
below the draw, the call raises IndexError and returns nothing.) -/
theorem draw_value_spec (V : Type) [DecidableEq V] (n : DNode V)
    (pi : List (String × V)) (u : ℚ) (mode : Bool) (pidx : List ℕ) (row : List ℚ)
    (hnz : allZero n.CPT = false)
    (hres : resolveParents n.parents pi = .ok pidx)
    (hrow : n.CPT.get? (flatIndex (parentSizes n.parents) pidx) = some row)
    (hlen : row.length = n.space.length)
    (hsp : n.space ≠ [])
    (hnorm : mode = false → row.sum = 1 ∧ 0 ≤ u ∧ u < 1) :
    ∃ i r, i < n.space.length ∧ n.space.get? i = some r
      ∧ draw_value n pi u mode = .ok r ∧ r ∈ n.space
      ∧ (mode = false → u ≤ (cumsum row).getD i 0 ∧ ∀ j < i, (cumsum row).getD j 0 < u)
      ∧ (mode = true → (∀ j < row.length, row.getD j 0 ≤ row.getD i 0)
          ∧ ∀ j < i, row.getD j 0 < row.getD i 0) := by
  have hrow' : n.CPT[flatIndex (parentSizes n.parents) pidx]? = some row := by
    rw [← List.get?_eq_getElem?]
    exact hrow
  cases mode with
  | false =>
    obtain ⟨hsum, hu0, hu1⟩ := hnorm rfl
    have hrne : row ≠ [] := by
      intro h
      rw [h] at hlen
      have := List.length_eq_zero.mp hlen.symm
      exact hsp this
    obtain ⟨c, hc, hcs⟩ := mem_cumsum_sum row hrne
    obtain ⟨i, hi⟩ := firstGE_some (cumsum row) u ⟨c, hc, by rw [hcs, hsum]; exact le_of_lt hu1⟩
    obtain ⟨hilt, hige, histrict⟩ := firstGE_spec (cumsum row) u i hi
    rw [cumsum_length] at hilt
    obtain ⟨r, hr⟩ := get?_some_of_lt n.space i (by omega)
    have hr' : n.space[i]? = some r := by
      rw [← List.get?_eq_getElem?]
      exact hr
    have hred : draw_value n pi u false = .ok r := by
      simp [draw_value, hnz, hres, hrow', hi, hr', ofOption]
    exact ⟨i, r, by omega, hr, hred, List.get?_mem hr,
      fun _ => ⟨hige, histrict⟩, by simp⟩
  | true =>
    have hrne : row ≠ [] := by
      intro h
      rw [h] at hlen
      have := List.length_eq_zero.mp hlen.symm
      exact hsp this
    obtain ⟨m, hm⟩ := argmaxIdx?_total row hrne
    obtain ⟨hm1, hm2, hm3⟩ := argmaxIdx?_spec row m hm
    obtain ⟨r, hr⟩ := get?_some_of_lt n.space m (by omega)
    have hr' : n.space[m]? = some r := by
      rw [← List.get?_eq_getElem?]
      exact hr
    have hred : draw_value n pi u true = .ok r := by
      simp [draw_value, hnz, hres, hrow', hm, hr', ofOption]
    exact ⟨m, r, by omega, hr, hred, List.get?_mem hr,
      by simp, fun _ => ⟨hm2, hm3⟩⟩

/-- C4, witness: `draw_value_spec` at `nodeUnif` (CPT `[1/2, 1/2]`) with
the draw `u = 0` and `mode = False`. -/
theorem draw_value_spec_witness :
    allZero nodeUnif.CPT = false
    ∧ ([(1 : ℚ)/2, 1/2].sum = 1 ∧ (0 : ℚ) ≤ 0 ∧ (0 : ℚ) < 1)
    ∧ (∃ i r, i < nodeUnif.space.length ∧ nodeUnif.space.get? i = some r
        ∧ draw_value nodeUnif [] 0 false = .ok r ∧ r ∈ nodeUnif.space
        ∧ (false = false → (0 : ℚ) ≤ (cumsum [(1 : ℚ)/2, 1/2]).getD i 0
            ∧ ∀ j < i, (cumsum [(1 : ℚ)/2, 1/2]).getD j 0 < 0)
        ∧ (false = true → (∀ j < ([(1 : ℚ)/2, 1/2] : List ℚ).length,
              ([(1 : ℚ)/2, 1/2] : List ℚ).getD j 0 ≤ ([(1 : ℚ)/2, 1/2] : List ℚ).getD i 0)
            ∧ ∀ j < i, ([(1 : ℚ)/2, 1/2] : List ℚ).getD j 0
                < ([(1 : ℚ)/2, 1/2] : List ℚ).getD i 0)) := by
  have hnz : allZero nodeUnif.CPT = false := by simp [allZero, nodeUnif]
  refine ⟨hnz, ⟨by norm_num, le_refl 0, by norm_num⟩, ?_⟩
  exact draw_value_spec ℤ nodeUnif [] 0 false [] [(1 : ℚ)/2, 1/2] hnz rfl rfl rfl
    (by simp [nodeUnif]) (fun _ => ⟨by norm_num, le_refl 0, by norm_num⟩)

/-- C5: `prob` returns exactly the CPT entry at the index resolved from
`parentinput` (missing parents defaulting to their current values, compare
`resolveParents`) and `valueinput` (defaulting to the node's current value),
and `logprob` returns its natural logarithm, which is negative infinity
exactly when the entry is zero. -/
theorem prob_logprob_spec (V : Type) [DecidableEq V] (n : DNode V)
    (pi : List (String × V)) (vio : Option V) (pidx : List ℕ) (row : List ℚ)
    (vi : ℕ) (q : ℚ)
    (hnz : allZero n.CPT = false)
    (hres : resolveParents n.parents pi = .ok pidx)
    (hrow : n.CPT.get? (flatIndex (parentSizes n.parents) pidx) = some row)
    (hvi : idxOf? n.space (vio.getD n.value) = some vi)
    (hq : row.get? vi = some q) :
    prob n pi vio = .ok q
    ∧ (q = 0 → logprob n pi vio = .ok ⊥)
    ∧ (q ≠ 0 → logprob n pi vio = .ok ((Real.log (q : ℝ) : ℝ) : EReal)) := by
  have hrow' : n.CPT[flatIndex (parentSizes n.parents) pidx]? = some row := by
    rw [← List.get?_eq_getElem?]
    exact hrow
  have hq' : row[vi]? = some q := by
    rw [← List.get?_eq_getElem?]
    exact hq
  have hp : prob n pi vio = .ok q := by
    simp [prob, hnz, hres, hrow', hvi, hq']
  refine ⟨hp, ?_, ?_⟩
  · intro h0
    simp [logprob, hp, Except.map, np_log, h0]
  · intro h0
    simp [logprob, hp, Except.map, np_log, h0]

/-- C5, witness: `prob_logprob_spec` at `nodeHalf` (CPT `[1/2, 0]`): the
entry for own value `1` is exactly zero, so `logprob` is negative infinity;
the entry for own value `0` is `1/2`, with `logprob = log (1/2)`. -/
theorem prob_logprob_spec_witness :
    prob nodeHalf [] (some 1) = .ok 0
    ∧ logprob nodeHalf [] (some 1) = .ok ⊥
    ∧ prob nodeHalf [] (some 0) = .ok (1/2)
    ∧ logprob nodeHalf [] (some 0)
        = .ok ((Real.log ((((1 : ℚ)/2) : ℚ) : ℝ) : ℝ) : EReal) := by
  have hnz : allZero nodeHalf.CPT = false := by simp [allZero, nodeHalf]
  have h1 := prob_logprob_spec ℤ nodeHalf [] (some 1) [] [(1 : ℚ)/2, 0] 1 0 hnz rfl rfl
    (by decide) rfl
  have h0 := prob_logprob_spec ℤ nodeHalf [] (some 0) [] [(1 : ℚ)/2, 0] 0 (1/2) hnz rfl rfl
    (by decide) rfl
  exact ⟨h1.1, h1.2.1 rfl, h0.1, h0.2.2 (by norm_num)⟩

/-- C6: each of `prob`, `logprob` and `draw_value` raises the
uninitialized-policy error carrying the node's name exactly when the CPT is
the all-zero sentinel; on a CPT with any non-zero entry the three
operations never raise that error (they may raise others, or succeed). -/
theorem uninitialized_error_iff (V : Type) [DecidableEq V] (n : DNode V)
    (pi : List (String × V)) (vio : Option V) (u : ℚ) (mode : Bool) :
    (prob n pi vio = .error (.uninitializedCPT n.name) ↔ allZero n.CPT = true)
    ∧ (logprob n pi vio = .error (.uninitializedCPT n.name) ↔ allZero n.CPT = true)
    ∧ (draw_value n pi u mode = .error (.uninitializedCPT n.name) ↔ allZero n.CPT = true)
    ∧ (allZero n.CPT = false →
        (∀ s, prob n pi vio ≠ .error (.uninitializedCPT s))
        ∧ (∀ s, logprob n pi vio ≠ .error (.uninitializedCPT s))
        ∧ (∀ s, draw_value n pi u mode ≠ .error (.uninitializedCPT s))) := by
  cases hz : allZero n.CPT with
  | true =>
    have hp : prob n pi vio = .error (.uninitializedCPT n.name) := by simp [prob, hz]
    have hd : draw_value n pi u mode = .error (.uninitializedCPT n.name) := by
      simp [draw_value, hz]
    have hl : logprob n pi vio = .error (.uninitializedCPT n.name) := by
      simp [logprob, hp, Except.map]
    refine ⟨⟨fun _ => rfl, fun _ => hp⟩, ⟨fun _ => rfl, fun _ => hl⟩,
      ⟨fun _ => rfl, fun _ => hd⟩, ?_⟩
    intro hfalse
    cases hfalse
  | false =>
    have hp : ∀ s, prob n pi vio ≠ .error (.uninitializedCPT s) := by
      intro s h
      cases h1 : resolveParents n.parents pi with
      | error e =>
        have he := resolveParents_err n.parents pi e h1
        subst he
        have hred : prob n pi vio = .error .valueNotInList := by
          simp [prob, hz, h1]
        rw [hred] at h
        simp at h
      | ok pidx =>
        cases h2 : n.CPT.get? (flatIndex (parentSizes n.parents) pidx) with
        | none =>
          have h2' : n.CPT[flatIndex (parentSizes n.parents) pidx]? = none := by
            rw [← List.get?_eq_getElem?]
            exact h2
          have hred : prob n pi vio = .error .indexError := by
            simp [prob, hz, h1, h2']
          rw [hred] at h
          simp at h
        | some row =>
          have h2' : n.CPT[flatIndex (parentSizes n.parents) pidx]? = some row := by
            rw [← List.get?_eq_getElem?]
            exact h2
          cases h3 : idxOf? n.space (vio.getD n.value) with
          | none =>
            have hred : prob n pi vio = .error .valueNotInList := by
              simp [prob, hz, h1, h2', h3]
            rw [hred] at h
            simp at h
          | some vi =>
            cases h4 : row.get? vi with
            | none =>
              have h4' : row[vi]? = none := by
                rw [← List.get?_eq_getElem?]
                exact h4
              have hred : prob n pi vio = .error .indexError := by
                simp [prob, hz, h1, h2', h3, h4']
              rw [hred] at h
              simp at h
            | some q =>
              have h4' : row[vi]? = some q := by
                rw [← List.get?_eq_getElem?]
                exact h4
              have hred : prob n pi vio = .ok q := by
                simp [prob, hz, h1, h2', h3, h4']
              rw [hred] at h
              simp at h
    have hd : ∀ s, draw_value n pi u mode ≠ .error (.uninitializedCPT s) := by
      intro s h
      cases h1 : resolveParents n.parents pi with
      | error e =>
        have he := resolveParents_err n.parents pi e h1
        subst he
        have hred : draw_value n pi u mode = .error .valueNotInList := by
          simp [draw_value, hz, h1]
        rw [hred] at h
        simp at h
      | ok pidx =>
        cases h2 : n.CPT.get? (flatIndex (parentSizes n.parents) pidx) with
        | none =>
          have h2' : n.CPT[flatIndex (parentSizes n.parents) pidx]? = none := by
            rw [← List.get?_eq_getElem?]
            exact h2
          have hred : draw_value n pi u mode = .error .indexError := by
            simp [draw_value, hz, h1, h2']
          rw [hred] at h
          simp at h
        | some row =>
          have h2' : n.CPT[flatIndex (parentSizes n.parents) pidx]? = some row := by
            rw [← List.get?_eq_getElem?]
            exact h2
          cases mode with
          | true =>
            cases h3 : argmaxIdx? row with
            | none =>
              have hred : draw_value n pi u true = .error .emptyArgmax := by
                simp [draw_value, hz, h1, h2', h3, ofOption]
              rw [hred] at h
              simp at h
            | some m =>
              cases h4 : n.space.get? m with
              | none =>
                have h4' : n.space[m]? = none := by
                  rw [← List.get?_eq_getElem?]
                  exact h4
                have hred : draw_value n pi u true = .error .indexError := by
                  simp [draw_value, hz, h1, h2', h3, h4', ofOption]
                rw [hred] at h
                simp at h
              | some r =>
                have h4' : n.space[m]? = some r := by
                  rw [← List.get?_eq_getElem?]
                  exact h4
                have hred : draw_value n pi u true = .ok r := by
                  simp [draw_value, hz, h1, h2', h3, h4', ofOption]
                rw [hred] at h
                simp at h
          | false =>
            cases h3 : firstGE u (cumsum row) with
            | none =>
              have hred : draw_value n pi u false = .error .indexError := by
                simp [draw_value, hz, h1, h2', h3, ofOption]
              rw [hred] at h
              simp at h
            | some i =>
              cases h4 : n.space.get? i with
              | none =>
                have h4' : n.space[i]? = none := by
                  rw [← List.get?_eq_getElem?]
                  exact h4
                have hred : draw_value n pi u false = .error .indexError := by
                  simp [draw_value, hz, h1, h2', h3, h4', ofOption]
                rw [hred] at h
                simp at h
              | some r =>
                have h4' : n.space[i]? = some r := by
                  rw [← List.get?_eq_getElem?]
                  exact h4
                have hred : draw_value n pi u false = .ok r := by
                  simp [draw_value, hz, h1, h2', h3, h4', ofOption]
                rw [hred] at h
                simp at h
    have hl : ∀ s, logprob n pi vio ≠ .error (.uninitializedCPT s) := by
      intro s h
      cases hq : prob n pi vio with
      | ok q =>
        have hred : logprob n pi vio = .ok (np_log q) := by
          simp [logprob, hq, Except.map]
        rw [hred] at h
        simp at h
      | error e =>
        have hred : logprob n pi vio = .error e := by
          simp [logprob, hq, Except.map]
        rw [hred] at h
        cases h
        exact hp s hq
    refine ⟨⟨fun h => absurd h (hp n.name), fun h => by cases h⟩,
      ⟨fun h => absurd h (hl n.name), fun h => by cases h⟩,
      ⟨fun h => absurd h (hd n.name), fun h => by cases h⟩,
      fun _ => ⟨hp, hl, hd⟩⟩

/-- C6, witness: the all-zero node `nodeZero` makes all three operations
fail with the error naming it, while the non-zero node `nodeHalf` never
sees that error. -/
theorem uninitialized_error_iff_witness :
    allZero nodeZero.CPT = true
    ∧ prob nodeZero [] none = .error (.uninitializedCPT nodeZero.name)
    ∧ allZero nodeHalf.CPT = false
    ∧ (∀ s, prob nodeHalf [] none ≠ .error (.uninitializedCPT s)) := by
  have hz : allZero nodeZero.CPT = true := by decide
  have hnz : allZero nodeHalf.CPT = false := by simp [allZero, nodeHalf]
  exact ⟨hz, (uninitialized_error_iff ℤ nodeZero [] none 0 false).1.mpr hz, hnz,
    ((uninitialized_error_iff ℤ nodeHalf [] none 0 false).2.2.2 hnz).1⟩

theorem seedNode_name {V : Type} (l0 : String → String → L0Dist) (nd : DNode V) :
    (seedNode l0 nd).name = nd.name := by
  cases h : nd.LevelCPT 0 with
  | some t => simp [seedNode, h]
  | none =>
    cases hdir : l0 nd.player nd.name with
    | uniform => simp [seedNode, h, hdir]
    | unspecified => simp [seedNode, h, hdir]
    | tensor t => simp [seedNode, h, hdir]

theorem seedNode_seeded {V : Type} (l0 : String → String → L0Dist) (nd : DNode V)
    (t : Tensor) (h : nd.LevelCPT 0 = some t) : seedNode l0 nd = nd := by
  simp [seedNode, h]

theorem findNode_mapNodes {V : Type} (f : DNode V → DNode V)
    (hf : ∀ d, (f d).name = d.name) :
    ∀ (l : List (DNode V)) (nm : String),
      (l.map f).find? (fun d => d.name == nm) =
        (l.find? (fun d => d.name == nm)).map f := by
  intro l
  induction l with
  | nil => intro nm; rfl
  | cons d rest ih =>
    intro nm
    simp only [List.map_cons, List.find?]
    rw [hf d]
    cases hname : (d.name == nm) with
    | true => rfl
    | false => exact ih nm

theorem set_L0_preserves_seeded {V : Type} (l0 : String → String → L0Dist) :
    ∀ (ps : List String) (g : Game V) (nm : String) (d : DNode V) (t : Tensor),
      findNode g nm = some d → d.LevelCPT 0 = some t →
      levelEntry (set_L0_CPT g ps l0) nm 0 = some t := by
  intro ps
  induction ps with
  | nil =>
    intro g nm d t hfind hsome
    simp [set_L0_CPT, levelEntry, hfind, hsome]
  | cons p ps' ih =>
    intro g nm d t hfind hsome
    have hstep : set_L0_CPT g (p :: ps') l0 = set_L0_CPT (seedPass l0 p g) ps' l0 := rfl
    rw [hstep]
    have hname : ∀ d' : DNode V,
        ((fun d => if d.player == p then seedNode l0 d else d) d').name = d'.name := by
      intro d'
      by_cases hp : d'.player == p
      · simp [hp, seedNode_name]
      · simp [hp]
    have hfind' : findNode (seedPass l0 p g) nm
        = some (if d.player == p then seedNode l0 d else d) := by
      simp only [findNode, seedPass] at hfind ⊢
      rw [findNode_mapNodes _ hname g.nodes nm, hfind]
      rfl
    by_cases hp : d.player == p
    · rw [if_pos hp] at hfind'
      rw [seedNode_seeded l0 d t hsome] at hfind'
      exact ih _ nm d t hfind' hsome
    · rw [if_neg hp] at hfind'
      exact ih _ nm d t hfind' hsome

/-- C8, amended: supplying an explicit prior tensor during Level-0 seeding
does not fail and is subject to no shape validation whatever: `_set_L0_CPT`
stores the supplied tensor directly as the node's `Level0` entry, even when
its shape disagrees with the node's CPT shape (it is neither broadcast nor
truncated — the very object is stored). (The original claim, that a
mismatched shape fails with a shape-mismatch error, is refuted by
`set_L0_mismatched_tensor_stored`.) -/
theorem set_L0_tensor_stored_directly (V : Type) [DecidableEq V] (g : Game V)
    (ps : List String) (l0 : String → String → L0Dist) (nm : String)
    (d : DNode V) (t : Tensor)
    (hfind : findNode g nm = some d)
    (hmem : d.player ∈ ps)
    (hnone : d.LevelCPT 0 = none)
    (hdir : l0 d.player d.name = .tensor t) :
    levelEntry (set_L0_CPT g ps l0) nm 0 = some t := by
  induction ps generalizing g d with
  | nil => cases hmem
  | cons p ps' ih =>
    have hstep : set_L0_CPT g (p :: ps') l0 = set_L0_CPT (seedPass l0 p g) ps' l0 := rfl
    rw [hstep]
    have hname : ∀ d' : DNode V,
        ((fun d => if d.player == p then seedNode l0 d else d) d').name = d'.name := by
      intro d'
      by_cases hp : d'.player == p
      · simp [hp, seedNode_name]
      · simp [hp]
    have hfind' : findNode (seedPass l0 p g) nm
        = some (if d.player == p then seedNode l0 d else d) := by
      simp only [findNode, seedPass] at hfind ⊢
      rw [findNode_mapNodes _ hname g.nodes nm, hfind]
      rfl
    by_cases hp : d.player == p
    · rw [if_pos hp] at hfind'
      have hseed : (seedNode l0 d).LevelCPT 0 = some t := by
        simp [seedNode, hnone, hdir, setStore]
      exact set_L0_preserves_seeded l0 ps' _ nm (seedNode l0 d) t hfind' hseed
    · rw [if_neg hp] at hfind'
      have hmem' : d.player ∈ ps' := by
        rcases List.mem_cons.mp hmem with h | h
        · exact absurd (by simp [h]) hp
        · exact h
      exact ih _ d hfind' hmem' hnone hdir

/-- C8, witness: `set_L0_tensor_stored_directly` applied to the game `gL0`
and the shape-mismatched prior `[[1, 2, 3]]`. -/
theorem set_L0_tensor_stored_directly_witness :
    levelEntry (set_L0_CPT gL0 ["1"] l0Mismatch) "E" 0 = some [[1, 2, 3]] :=
  set_L0_tensor_stored_directly ℤ gL0 ["1"] l0Mismatch "E" nodeL0 [[1, 2, 3]]
    rfl (by simp [nodeL0]) rfl rfl

/-- C1: evaluation of `train_node` at a game violating the claimed
precondition. `D2` is a decision node with no `Level0` entry, yet
`train_node('D1', 1)` completes without the claimed missing-lower-level
KeyError; moreover the `Level1` policy stored for `D1` is the arg-max
one-hot of `D1`'s live CPT `[1, 3]` (namely `[0, 1]`), not of its
`Level0` entry `[1, 0]` (which would give `[1, 0]`): no decision node in
the scratch graph had its CPT overwritten before estimation, because the
swap loop iterates the string keys of `node_dict`, for which the
`type(node) is DecisionNode` test is always false. -/
theorem trainNode_missing_lower_level_not_enforced :
    resultIsOk (trainNode mceuPeek gBug "D1" 1 false) = true
    ∧ resultLevelEntry (trainNode mceuPeek gBug "D1" 1 false) "D1" 1 = some [[0, 1]]
    ∧ hasLevel gBug "D2" 0 = false
    ∧ levelEntry gBug "D1" 0 = some [[1, 0]]
    ∧ convert_2_pureCPT [[1, 0]] = [[1, 0]] := by
  decide

/-- C4, counterexample: `nodeHalf` has a non-zero CPT `[1/2, 0]`, the draw
`u = 3/4` lies in `[0, 1)`, yet `draw_value` with `mode = False` raises
IndexError (no cumulative entry reaches the draw), so it does not return
any member of the node's space. -/
theorem draw_value_nonzero_cpt_cex :
    draw_value nodeHalf [] (3/4) false = .error .indexError
    ∧ allZero nodeHalf.CPT = false
    ∧ (0 : ℚ) ≤ 3/4 ∧ (3/4 : ℚ) < 1 := by
  refine ⟨?_, ?_, by norm_num, by norm_num⟩
  · simp [draw_value, nodeHalf, allZero, resolveParents, flatIndex, parentSizes,
      cumsum, firstGE, ofOption, Bind.bind, Except.bind]
    norm_num
  · simp [allZero, nodeHalf]

/-- C8, counterexample: seeding game `gL0` with an explicit prior tensor
`[[1, 2, 3]]` whose shape disagrees with node `E`'s CPT shape does not
fail — `_set_L0_CPT` stores the mismatched tensor directly as `Level0`. -/
theorem set_L0_mismatched_tensor_stored :
    levelEntry (set_L0_CPT gL0 ["1"] l0Mismatch) "E" 0 = some [[1, 2, 3]]
    ∧ shapeLast [[(1 : ℚ), 2, 3]] ≠ shapeLast nodeL0.CPT := by
  decide

theorem pyFold_swap_id {V : Type} (level : ℕ) :
    ∀ (l : List (DNode V)) (g : Game V),
      pyFold (swapToLevel level) g (l.map (fun d => PyRef.str d.name)) = .ok g := by
  intro l
  induction l with
  | nil => intro g; rfl
  | cons d rest ih =>
    intro g
    simp only [List.map_cons, pyFold, swapToLevel, isDecisionNodeType, Bool.false_eq_true,
      if_false]
    exact ih g

theorem hasNode_of_mem {V : Type} (g : Game V) (d : DNode V) (hd : d ∈ g.nodes) :
    hasNode g d.name = true := by
  simp only [hasNode, findNode]
  rw [Option.isSome_iff_exists]
  have : ∃ x ∈ g.nodes, (fun d' => d'.name == d.name) x = true :=
    ⟨d, hd, by simp⟩
  rcases List.find?_isSome.mpr this with h
  exact Option.isSome_iff_exists.mp h

theorem trainNode_eq {V : Type} (mceu : Game V → String → Tensor) (g : Game V)
    (nm : String) (level : ℕ) (setC : Bool) (hfound : hasNode g nm = true) :
    trainNode mceu g nm level setC = .ok (updNode g nm (fun d =>
      { d with LevelCPT := setStore d.LevelCPT level (convert_2_pureCPT (mceu g nm)),
               CPT := if setC then convert_2_pureCPT (mceu g nm) else d.CPT })) := by
  obtain ⟨d, hd⟩ := Option.isSome_iff_exists.mp hfound
  simp [trainNode, dictIterKeys, pyFold_swap_id, hd]

theorem findNode_updNode {V : Type} (g : Game V) (nm nm' : String)
    (f : DNode V → DNode V) (hf : ∀ d, (f d).name = d.name) :
    findNode (updNode g nm f) nm'
      = (findNode g nm').map (fun d => if d.name == nm then f d else d) := by
  simp only [findNode, updNode]
  exact findNode_mapNodes _ (fun d => by by_cases h : d.name == nm <;> simp [h, hf]) g.nodes nm'

theorem hasNode_updNode {V : Type} (g : Game V) (nm : String) (f : DNode V → DNode V)
    (hf : ∀ d, (f d).name = d.name) (x : String) :
    hasNode (updNode g nm f) x = hasNode g x := by
  simp only [hasNode]
  rw [findNode_updNode g nm x f hf]
  cases findNode g x <;> rfl

theorem filter_pairs_map_if {V : Type} (nm : String) (f : DNode V → DNode V)
    (hf : ∀ d, (f d).name = d.name ∧ (f d).player = d.player ∧ (f d).Level = d.Level)
    (p : String) :
    ∀ l : List (DNode V),
      ((l.map (fun d => if d.name == nm then f d else d)).filter
          (fun d => d.player == p)).map (fun d => (d.name, d.Level))
        = (l.filter (fun d => d.player == p)).map (fun d => (d.name, d.Level)) := by
  intro l
  induction l with
  | nil => rfl
  | cons d rest ih =>
    by_cases hn : d.name == nm
    · rcases hf d with ⟨h1, h2, h3⟩
      by_cases hp : d.player == p
      · simp only [List.map_cons, if_pos hn, List.filter_cons, h2, hp, if_pos,
          List.map_cons, h1, h3]
        rw [ih]
      · simp only [List.map_cons, if_pos hn, List.filter_cons, h2, hp]
        simpa using ih
    · by_cases hp : d.player == p
      · simp only [List.map_cons, if_neg hn, List.filter_cons, hp]
        simpa using ih
      · simp only [List.map_cons, if_neg hn, List.filter_cons, hp]
        simpa using ih

theorem partition_pairs_updNode {V : Type} (g : Game V) (nm : String)
    (f : DNode V → DNode V)
    (hf : ∀ d, (f d).name = d.name ∧ (f d).player = d.player ∧ (f d).Level = d.Level)
    (p : String) :
    (partition (updNode g nm f) p).map (fun d => (d.name, d.Level))
      = (partition g p).map (fun d => (d.name, d.Level)) := by
  simp only [partition, updNode]
  exact filter_pairs_map_if nm f hf p g.nodes

theorem hasLevel_updNode_store {V : Type} (g : Game V) (nm : String) (level : ℕ)
    (newP : Tensor) (f : DNode V → DNode V)
    (hfname : ∀ d, (f d).name = d.name)
    (hfstore : ∀ d, (f d).LevelCPT = setStore d.LevelCPT level newP)
    (nm' : String) (l : ℕ) :
    hasLevel (updNode g nm f) nm' l = true
      ↔ (hasLevel g nm' l = true ∨ (nm' = nm ∧ l = level ∧ hasNode g nm = true)) := by
  simp only [hasLevel, levelEntry, hasNode]
  rw [findNode_updNode g nm nm' f hfname]
  cases hfind : findNode g nm' with
  | none =>
    simp only [Option.map_none', Option.none_bind, Option.isSome_none,
      Bool.false_eq_true, false_iff]
    rintro (h | ⟨rfl, -, hsome⟩)
    · simp at h
    · rw [hfind] at hsome
      simp at hsome
  | some d =>
    have hdname : d.name = nm' := by
      have := List.find?_some hfind
      simpa using this
    simp only [Option.map_some', Option.some_bind]
    by_cases hnm : nm' = nm
    · subst hnm
      by_cases hl : l = level
      · subst hl
        simp [hdname, hfstore, setStore, hfind]
      · simp [hdname, hfstore, setStore, hl, hfind]
    · have hcond : (d.name == nm) = false := by
        simp [hdname, hnm]
      simp [hcond, hfind, hnm]

theorem trainMany_spec {V : Type} (mceu : Game V → String → Tensor) :
    ∀ (evs : List (String × ℕ)) (g : Game V),
      (∀ e ∈ evs, hasNode g e.1 = true) →
      ∃ g', trainMany mceu g evs = .ok g'
        ∧ g'.players = g.players
        ∧ (∀ p, (partition g' p).map (fun d => (d.name, d.Level))
            = (partition g p).map (fun d => (d.name, d.Level)))
        ∧ (∀ x, hasNode g' x = hasNode g x)
        ∧ (∀ nm l, hasLevel g' nm l = true
            ↔ (hasLevel g nm l = true ∨ ((nm, l) ∈ evs ∧ hasNode g nm = true))) := by
  intro evs
  induction evs with
  | nil =>
    intro g _
    refine ⟨g, rfl, rfl, fun p => rfl, fun x => rfl, ?_⟩
    intro nm l
    simp
  | cons e rest ih =>
    intro g hall
    obtain ⟨nm0, l0⟩ := e
    have h0 : hasNode g nm0 = true := hall (nm0, l0) (List.mem_cons_self _ _)
    have heq := trainNode_eq mceu g nm0 l0 false h0
    have hstep : trainMany mceu g ((nm0, l0) :: rest)
        = trainMany mceu (updNode g nm0 (fun d =>
            { d with LevelCPT := setStore d.LevelCPT l0 (convert_2_pureCPT (mceu g nm0)),
                     CPT := if false then convert_2_pureCPT (mceu g nm0) else d.CPT }))
            rest := by
      simp only [trainMany, pyFold]
      rw [heq]
    have hhn1 := hasNode_updNode g nm0 (fun d =>
      { d with LevelCPT := setStore d.LevelCPT l0 (convert_2_pureCPT (mceu g nm0)),
               CPT := if false then convert_2_pureCPT (mceu g nm0) else d.CPT })
      (fun d => rfl)
    have hpart1 := partition_pairs_updNode g nm0 (fun d =>
      { d with LevelCPT := setStore d.LevelCPT l0 (convert_2_pureCPT (mceu g nm0)),
               CPT := if false then convert_2_pureCPT (mceu g nm0) else d.CPT })
      (fun d => ⟨rfl, rfl, rfl⟩)
    have hlev1 := hasLevel_updNode_store g nm0 l0 (convert_2_pureCPT (mceu g nm0))
      (fun d =>
        { d with LevelCPT := setStore d.LevelCPT l0 (convert_2_pureCPT (mceu g nm0)),
                 CPT := if false then convert_2_pureCPT (mceu g nm0) else d.CPT })
      (fun d => rfl) (fun d => rfl)
    have hrest : ∀ e ∈ rest, hasNode (updNode g nm0 (fun d =>
        { d with LevelCPT := setStore d.LevelCPT l0 (convert_2_pureCPT (mceu g nm0)),
                 CPT := if false then convert_2_pureCPT (mceu g nm0) else d.CPT })) e.1
        = true := by
      intro e he
      rw [hhn1]
      exact hall e (List.mem_cons.mpr (Or.inr he))
    obtain ⟨g', hok, hpl, hpart, hhn, hlev⟩ := ih _ hrest
    refine ⟨g', by rw [hstep]; exact hok, hpl, fun p => (hpart p).trans (hpart1 p),
      fun x => (hhn x).trans (hhn1 x), ?_⟩
    intro nm l
    rw [hlev nm l, hlev1 nm l, hhn1 nm]
    simp only [List.mem_cons, Prod.mk.injEq]
    constructor
    · rintro ((h | ⟨rfl, rfl, hn⟩) | ⟨hm, hn⟩)
      · exact Or.inl h
      · exact Or.inr ⟨Or.inl ⟨rfl, rfl⟩, hn⟩
      · exact Or.inr ⟨Or.inr hm, hn⟩
    · rintro (h | ⟨(⟨rfl, rfl⟩ | hm), hn⟩)
      · exact Or.inl (Or.inl h)
      · exact Or.inl (Or.inr ⟨rfl, rfl, hn⟩)
      · exact Or.inr ⟨hm, hn⟩

theorem pyFold_cons_ok {α β : Type} (f : β → α → Except PyErr β) {a : α} {as : List α}
    {b b' : β} (h : f b a = .ok b') : pyFold f b (a :: as) = pyFold f b' as := by
  simp only [pyFold]
  rw [h]

theorem pyFold_cons_err {α β : Type} (f : β → α → Except PyErr β) {a : α} {as : List α}
    {b : β} {e : PyErr} (h : f b a = .error e) : pyFold f b (a :: as) = .error e := by
  simp only [pyFold]
  rw [h]

theorem trainMany_append_ok {V : Type} (mceu : Game V → String → Tensor)
    {l1 : List (String × ℕ)} {g g1 : Game V}
    (h1 : trainMany mceu g l1 = .ok g1) (l2 : List (String × ℕ)) :
    trainMany mceu g (l1 ++ l2) = trainMany mceu g1 l2 := by
  have h1' : pyFold (fun h e => trainNode mceu h e.1 e.2 false) g l1 = .ok g1 := h1
  show pyFold (fun h e => trainNode mceu h e.1 e.2 false) g (l1 ++ l2) = _
  rw [pyFold_append, h1']
  rfl

theorem trainMany_map_names {V : Type} (mceu : Game V → String → Tensor) (lvl : ℕ)
    (l : List (DNode V)) (h2 : Game V) :
    pyFold (fun h3 c => trainNode mceu h3 c.name lvl false) h2 l
      = trainMany mceu h2 (l.map (fun d => (d.name, lvl))) := by
  rw [trainMany, pyFold_map]

theorem pyFold_if_filter {V : Type} (mceu : Game V → String → Tensor) (k : ℕ) :
    ∀ (l : List (DNode V)) (h2 : Game V),
      pyFold (fun h3 c => if c.Level == k then trainNode mceu h3 c.name k false
          else .ok h3) h2 l
        = trainMany mceu h2
            ((l.filter (fun d => d.Level == k)).map (fun d => (d.name, k))) := by
  intro l
  induction l with
  | nil => intro h2; rfl
  | cons c rest ih =>
    intro h2
    cases hc : (c.Level == k) with
    | true =>
      cases htn : trainNode mceu h2 c.name k false with
      | ok h3 =>
        have hstep : (if c.Level == k then trainNode mceu h2 c.name k false
            else Except.ok h2) = Except.ok h3 := by
          simp [hc, htn]
        rw [pyFold_cons_ok (fun (h3 : Game V) (c : DNode V) =>
            if c.Level == k then trainNode mceu h3 c.name k false else Except.ok h3)
          hstep, ih h3]
        have hR : trainMany mceu h2
            (((c :: rest).filter (fun d => d.Level == k)).map (fun d => (d.name, k)))
            = trainMany mceu h3
              ((rest.filter (fun d => d.Level == k)).map (fun d => (d.name, k))) := by
          simp only [List.filter_cons, hc, if_true, List.map_cons]
          exact pyFold_cons_ok (fun (h : Game V) (e : String × ℕ) =>
            trainNode mceu h e.1 e.2 false) htn
        rw [hR]
      | error e =>
        have hstep : (if c.Level == k then trainNode mceu h2 c.name k false
            else Except.ok h2) = Except.error e := by
          simp [hc, htn]
        rw [pyFold_cons_err (fun (h3 : Game V) (c : DNode V) =>
            if c.Level == k then trainNode mceu h3 c.name k false else Except.ok h3)
          hstep]
        have hR : trainMany mceu h2
            (((c :: rest).filter (fun d => d.Level == k)).map (fun d => (d.name, k)))
            = .error e := by
          simp only [List.filter_cons, hc, if_true, List.map_cons]
          exact pyFold_cons_err (fun (h : Game V) (e : String × ℕ) =>
            trainNode mceu h e.1 e.2 false) htn
        rw [hR]
    | false =>
      have hstep : (if c.Level == k then trainNode mceu h2 c.name k false
          else Except.ok h2) = Except.ok h2 := by
        simp [hc]
      rw [pyFold_cons_ok (fun (h3 : Game V) (c : DNode V) =>
          if c.Level == k then trainNode mceu h3 c.name k false else Except.ok h3)
        hstep]
      simp only [List.filter_cons, hc, Bool.false_eq_true, if_false]
      exact ih h2

theorem partition_names_of_pairs {V : Type} (g1 g2 : Game V)
    (hpart : ∀ p, (partition g1 p).map (fun d => (d.name, d.Level))
      = (partition g2 p).map (fun d => (d.name, d.Level)))
    (lvl : ℕ) (p : String) :
    (partition g1 p).map (fun d => (d.name, lvl))
      = (partition g2 p).map (fun d => (d.name, lvl)) := by
  have h1 : (partition g1 p).map (fun d => (d.name, lvl))
      = ((partition g1 p).map (fun d => (d.name, d.Level))).map (fun pr => (pr.1, lvl)) := by
    rw [List.map_map]
    rfl
  have h2 : (partition g2 p).map (fun d => (d.name, lvl))
      = ((partition g2 p).map (fun d => (d.name, d.Level))).map (fun pr => (pr.1, lvl)) := by
    rw [List.map_map]
    rfl
  rw [h1, h2, hpart p]

theorem filter_level_names_eq {V : Type} (k : ℕ) :
    ∀ (l1 l2 : List (DNode V)),
      l1.map (fun d => (d.name, d.Level)) = l2.map (fun d => (d.name, d.Level)) →
      (l1.filter (fun d => d.Level == k)).map (fun d => (d.name, k))
        = (l2.filter (fun d => d.Level == k)).map (fun d => (d.name, k)) := by
  intro l1
  induction l1 with
  | nil =>
    intro l2 h
    cases l2 with
    | nil => rfl
    | cons d2 t2 => simp at h
  | cons d1 t1 ih =>
    intro l2 h
    cases l2 with
    | nil => simp at h
    | cons d2 t2 =>
      simp only [List.map_cons, List.cons.injEq, Prod.mk.injEq] at h
      rcases h with ⟨⟨hname, hlevel⟩, htail⟩
      simp only [List.filter_cons, hlevel]
      cases hd2 : (d2.Level == k) with
      | true =>
        simp only [if_true, List.map_cons, hname]
        rw [ih t2 htail]
      | false =>
        simp only [Bool.false_eq_true, if_false]
        exact ih t2 htail

theorem hasNode_block {V : Type} (g : Game V) (lvl : ℕ) :
    ∀ e ∈ g.players.flatMap (fun p => (partition g p).map (fun d => (d.name, lvl))),
      hasNode g e.1 = true := by
  intro e he
  rcases List.mem_flatMap.mp he with ⟨p, _, hmem⟩
  rcases List.mem_map.mp hmem with ⟨d, hd, rfl⟩
  exact hasNode_of_mem g d (List.mem_of_mem_filter hd)

theorem hasNode_filter_block {V : Type} (g : Game V) (k : ℕ) :
    ∀ e ∈ g.players.flatMap (fun p =>
        ((partition g p).filter (fun d => d.Level == k)).map (fun d => (d.name, k))),
      hasNode g e.1 = true := by
  intro e he
  rcases List.mem_flatMap.mp he with ⟨p, _, hmem⟩
  rcases List.mem_map.mp hmem with ⟨d, hd, rfl⟩
  exact hasNode_of_mem g d (List.mem_of_mem_filter (List.mem_of_mem_filter hd))

theorem sweep_players_eq {V : Type} (mceu : Game V → String → Tensor) (lvl : ℕ) :
    ∀ (ps : List String) (h : Game V),
      pyFold (fun h2 p => pyFold (fun h3 c => trainNode mceu h3 c.name lvl false) h2
          (partition h2 p)) h ps
        = trainMany mceu h
            (ps.flatMap (fun p => (partition h p).map (fun d => (d.name, lvl)))) := by
  intro ps
  induction ps with
  | nil => intro h; rfl
  | cons p ps' ih =>
    intro h
    have hblock : ∀ e ∈ (partition h p).map (fun d => (d.name, lvl)),
        hasNode h e.1 = true := by
      intro e he
      rcases List.mem_map.mp he with ⟨d, hd, rfl⟩
      exact hasNode_of_mem h d (List.mem_of_mem_filter hd)
    obtain ⟨g1, hok, hpl, hpart, _, _⟩ :=
      trainMany_spec mceu ((partition h p).map (fun d => (d.name, lvl))) h hblock
    have hin : pyFold (fun h3 c => trainNode mceu h3 c.name lvl false) h (partition h p)
        = .ok g1 := by
      rw [trainMany_map_names mceu lvl (partition h p) h]
      exact hok
    rw [pyFold_cons_ok (fun (h2 : Game V) (p : String) => pyFold
          (fun h3 c => trainNode mceu h3 c.name lvl false) h2 (partition h2 p)) hin,
      ih g1,
      show (fun p' => (partition g1 p').map (fun d => (d.name, lvl)))
          = (fun p' => (partition h p').map (fun d => (d.name, lvl)))
        from funext (partition_names_of_pairs g1 h hpart lvl),
      List.flatMap_cons, trainMany_append_ok mceu hok]

theorem levels_sweep_eq {V : Type} (mceu : Game V → String → Tensor) :
    ∀ (lvls : List ℕ) (g : Game V),
      pyFold (fun h level =>
          pyFold (fun h2 p => pyFold (fun h3 c => trainNode mceu h3 c.name level false)
              h2 (partition h2 p)) h h.players) g lvls
        = trainMany mceu g (lvls.flatMap (fun l =>
            g.players.flatMap (fun p => (partition g p).map (fun d => (d.name, l))))) := by
  intro lvls
  induction lvls with
  | nil => intro g; rfl
  | cons l rest ih =>
    intro g
    obtain ⟨g1, hok, hpl, hpart, _, _⟩ :=
      trainMany_spec mceu
        (g.players.flatMap (fun p => (partition g p).map (fun d => (d.name, l)))) g
        (hasNode_block g l)
    have hinner : ∀ l' : ℕ,
        g1.players.flatMap (fun p => (partition g1 p).map (fun d => (d.name, l')))
          = g.players.flatMap (fun p => (partition g p).map (fun d => (d.name, l'))) := by
      intro l'
      rw [hpl,
        show (fun p => (partition g1 p).map (fun d => (d.name, l')))
            = (fun p => (partition g p).map (fun d => (d.name, l')))
          from funext (partition_names_of_pairs g1 g hpart l')]
    have hlev : pyFold (fun h2 p => pyFold
        (fun h3 c => trainNode mceu h3 c.name l false) h2 (partition h2 p)) g g.players
        = .ok g1 := by
      rw [sweep_players_eq mceu l g.players g]
      exact hok
    rw [pyFold_cons_ok (fun (h : Game V) (level : ℕ) =>
          pyFold (fun h2 p => pyFold (fun h3 c => trainNode mceu h3 c.name level false)
              h2 (partition h2 p)) h h.players) hlev,
      ih g1,
      show (fun l' => g1.players.flatMap (fun p =>
          (partition g1 p).map (fun d => (d.name, l'))))
        = (fun l' => g.players.flatMap (fun p =>
          (partition g p).map (fun d => (d.name, l'))))
        from funext hinner,
      List.flatMap_cons, trainMany_append_ok mceu hok]

theorem final_players_eq {V : Type} (mceu : Game V → String → Tensor) (k : ℕ) :
    ∀ (ps : List String) (h : Game V),
      pyFold (fun h2 p => pyFold (fun h3 c =>
          if c.Level == k then trainNode mceu h3 c.name k false else .ok h3) h2
          (partition h2 p)) h ps
        = trainMany mceu h (ps.flatMap (fun p =>
            ((partition h p).filter (fun d => d.Level == k)).map (fun d => (d.name, k)))) := by
  intro ps
  induction ps with
  | nil => intro h; rfl
  | cons p ps' ih =>
    intro h
    have hblock : ∀ e ∈ ((partition h p).filter (fun d => d.Level == k)).map
        (fun d => (d.name, k)), hasNode h e.1 = true := by
      intro e he
      rcases List.mem_map.mp he with ⟨d, hd, rfl⟩
      exact hasNode_of_mem h d (List.mem_of_mem_filter (List.mem_of_mem_filter hd))
    obtain ⟨g1, hok, hpl, hpart, _, _⟩ :=
      trainMany_spec mceu
        (((partition h p).filter (fun d => d.Level == k)).map (fun d => (d.name, k))) h
        hblock
    have hinner : ∀ p' : String,
        ((partition g1 p').filter (fun d => d.Level == k)).map (fun d => (d.name, k))
          = ((partition h p').filter (fun d => d.Level == k)).map (fun d => (d.name, k)) :=
      fun p' => filter_level_names_eq k (partition g1 p') (partition h p') (hpart p')
    have hin : pyFold (fun h3 c =>
        if c.Level == k then trainNode mceu h3 c.name k false else .ok h3) h
        (partition h p) = .ok g1 := by
      rw [pyFold_if_filter mceu k (partition h p) h]
      exact hok
    rw [pyFold_cons_ok (fun (h2 : Game V) (p : String) => pyFold (fun h3 c =>
          if c.Level == k then trainNode mceu h3 c.name k false else .ok h3) h2
          (partition h2 p)) hin,
      ih g1,
      show (fun p' => ((partition g1 p').filter (fun d => d.Level == k)).map
          (fun d => (d.name, k)))
        = (fun p' => ((partition h p').filter (fun d => d.Level == k)).map
          (fun d => (d.name, k)))
        from funext hinner,
      List.flatMap_cons, trainMany_append_ok mceu hok]

theorem orderedNames_block {V : Type} (g : Game V) (l : ℕ) :
    (orderedNodeNames g).map (fun nm => (nm, l))
      = g.players.flatMap (fun p => (partition g p).map (fun d => (d.name, l))) := by
  simp only [orderedNodeNames, List.map_flatMap, List.map_map]
  rfl

theorem solve_game_eq_trainMany {V : Type} (mceu : Game V → String → Tensor)
    (g : Game V) (k : ℕ) :
    solve_game mceu g k false = trainMany mceu g (solveTrace g k) := by
  have htrace : solveTrace g k
      = (List.range' 1 (k - 1)).flatMap (fun l =>
          g.players.flatMap (fun p => (partition g p).map (fun d => (d.name, l))))
        ++ g.players.flatMap (fun p =>
          ((partition g p).filter (fun d => d.Level == k)).map (fun d => (d.name, k))) := by
    simp only [solveTrace]
    congr 1
    exact congrArg _ (funext fun l => orderedNames_block g l)
  obtain ⟨g1, hok1, hpl1, hpart1, hhn1, _⟩ :=
    trainMany_spec mceu
      ((List.range' 1 (k - 1)).flatMap (fun l =>
        g.players.flatMap (fun p => (partition g p).map (fun d => (d.name, l))))) g
      (by
        intro e he
        rcases List.mem_flatMap.mp he with ⟨l, _, hmem⟩
        exact hasNode_block g l e hmem)
  have hinner : ∀ p' : String,
      ((partition g1 p').filter (fun d => d.Level == k)).map (fun d => (d.name, k))
        = ((partition g p').filter (fun d => d.Level == k)).map (fun d => (d.name, k)) :=
    fun p' => filter_level_names_eq k (partition g1 p') (partition g p') (hpart1 p')
  obtain ⟨g2, hok2, _, _, _, _⟩ :=
    trainMany_spec mceu
      (g.players.flatMap (fun p =>
        ((partition g p).filter (fun d => d.Level == k)).map (fun d => (d.name, k)))) g1
      (by
        intro e he
        rw [hhn1 e.1]
        exact hasNode_filter_block g k e he)
  have h1 : pyFold (fun h level =>
      pyFold (fun h2 p => pyFold (fun h3 c => trainNode mceu h3 c.name level false)
          h2 (partition h2 p)) h h.players) g (List.range' 1 (k - 1)) = .ok g1 := by
    rw [levels_sweep_eq mceu (List.range' 1 (k - 1)) g]
    exact hok1
  have h2 : pyFold (fun h2 p => pyFold (fun h3 c =>
      if c.Level == k then trainNode mceu h3 c.name k false else .ok h3) h2
      (partition h2 p)) g1 g1.players = .ok g2 := by
    rw [final_players_eq mceu k g1.players g1, hpl1,
      show (fun p' => ((partition g1 p').filter (fun d => d.Level == k)).map
          (fun d => (d.name, k)))
        = (fun p' => ((partition g p').filter (fun d => d.Level == k)).map
          (fun d => (d.name, k)))
        from funext hinner]
    exact hok2
  simp only [solve_game, h1, h2, Bool.false_eq_true, if_false]
  rw [htrace, trainMany_append_ok mceu hok1]
  exact hok2.symm

theorem pairwise_all {α : Type} {R : α → α → Prop} :
    ∀ (l : List α), (∀ a ∈ l, ∀ b ∈ l, R a b) → l.Pairwise R := by
  intro l
  induction l with
  | nil => intro _; exact List.Pairwise.nil
  | cons a t ih =>
    intro h
    refine List.Pairwise.cons ?_ (ih ?_)
    · intro b hb
      exact h a (List.mem_cons_self a t) b (List.mem_cons_of_mem a hb)
    · intro x hx y hy
      exact h x (List.mem_cons_of_mem a hx) y (List.mem_cons_of_mem a hy)

theorem pairwise_lt_range1 : ∀ (n s : ℕ), (List.range' s n).Pairwise (fun a b => a < b) := by
  intro n
  induction n with
  | zero => intro s; exact List.Pairwise.nil
  | succ m ih =>
    intro s
    rw [List.range'_succ]
    refine List.Pairwise.cons ?_ (ih (s + 1))
    intro b hb
    have h1 := (List.mem_range'_1.mp hb).1
    omega

theorem pairwise_levelBlocks (f : ℕ → List (String × ℕ))
    (hf : ∀ l, ∀ e ∈ f l, e.2 = l) :
    ∀ (lvls : List ℕ), lvls.Pairwise (fun a b => a < b) →
      (lvls.flatMap f).Pairwise (fun a b => a.2 ≤ b.2) := by
  intro lvls
  induction lvls with
  | nil => intro _; exact List.Pairwise.nil
  | cons l rest ih =>
    intro hp
    rcases List.pairwise_cons.mp hp with ⟨hlt, hrest⟩
    rw [List.flatMap_cons]
    apply List.pairwise_append.mpr
    refine ⟨pairwise_all (f l) ?_, ih hrest, ?_⟩
    · intro a ha b hb
      rw [hf l a ha, hf l b hb]
    · intro a ha b hb
      rcases List.mem_flatMap.mp hb with ⟨l2, hl2, hbm⟩
      rw [hf l a ha, hf l2 b hbm]
      exact Nat.le_of_lt (hlt l2 hl2)

/-- The static schedule is level-monotone: every level-`l` training event
precedes every level-`l+1` training event. -/
theorem solveTrace_pairwise {V : Type} (g : Game V) (k : ℕ) :
    (solveTrace g k).Pairwise (fun a b => a.2 ≤ b.2) := by
  simp only [solveTrace]
  apply List.pairwise_append.mpr
  refine ⟨?_, ?_, ?_⟩
  · apply pairwise_levelBlocks (fun l => (orderedNodeNames g).map (fun nm => (nm, l)))
    · intro l e he
      rcases List.mem_map.mp he with ⟨x, _, hx⟩
      rw [← hx]
    · exact pairwise_lt_range1 (k - 1) 1
  · apply pairwise_all
    intro a ha b hb
    rcases List.mem_flatMap.mp ha with ⟨p, _, ham⟩
    rcases List.mem_map.mp ham with ⟨d, _, hda⟩
    rcases List.mem_flatMap.mp hb with ⟨q, _, hbm⟩
    rcases List.mem_map.mp hbm with ⟨c, _, hcb⟩
    rw [← hda, ← hcb]
  · intro a ha b hb
    rcases List.mem_flatMap.mp ha with ⟨l, hl, ham⟩
    rcases List.mem_map.mp ham with ⟨x, _, hxa⟩
    rcases List.mem_flatMap.mp hb with ⟨p, _, hbm⟩
    rcases List.mem_map.mp hbm with ⟨d, _, hdb⟩
    have hr := List.mem_range'_1.mp hl
    rw [← hxa, ← hdb]
    show l ≤ k
    omega

theorem count_pair_map_eq (nm : String) (l : ℕ) :
    ∀ (names : List String),
      ((names.map (fun x => (x, l))).count (nm, l)) = names.count nm := by
  intro names
  induction names with
  | nil => rfl
  | cons x xs ih =>
    simp only [List.map_cons, List.count_cons, ih, Prod.mk.injEq, beq_iff_eq]
    by_cases hx : nm = x
    · simp [hx]
    · simp [hx]

theorem count_pair_map_ne (names : List String) (nm : String) {l l2 : ℕ}
    (hne : l2 ≠ l) :
    ((names.map (fun x => (x, l2))).count (nm, l)) = 0 := by
  apply List.count_eq_zero_of_not_mem
  intro hmem
  rcases List.mem_map.mp hmem with ⟨x, _, hx⟩
  exact hne (congrArg Prod.snd hx)

theorem count_pairs_zero_of_not_mem (names : List String) (nm : String) (l : ℕ) :
    ∀ (lvls : List ℕ), l ∉ lvls →
      ((lvls.flatMap (fun l2 => names.map (fun x => (x, l2)))).count (nm, l)) = 0 := by
  intro lvls hl
  apply List.count_eq_zero_of_not_mem
  intro hmem
  rcases List.mem_flatMap.mp hmem with ⟨l2, hl2, hm⟩
  rcases List.mem_map.mp hm with ⟨x, _, hx⟩
  have h2 : l2 = l := congrArg Prod.snd hx
  exact hl (h2 ▸ hl2)

theorem count_flatMap_levels (names : List String) (nm : String)
    (hc : names.count nm = 1) :
    ∀ (lvls : List ℕ), lvls.Nodup → ∀ l, l ∈ lvls →
      ((lvls.flatMap (fun l2 => names.map (fun x => (x, l2)))).count (nm, l)) = 1 := by
  intro lvls
  induction lvls with
  | nil => intro _ l hl; cases hl
  | cons l0 rest ih =>
    intro hnd l hl
    rcases List.nodup_cons.mp hnd with ⟨hl0, hrest⟩
    rw [List.flatMap_cons, List.count_append]
    rcases List.mem_cons.mp hl with rfl | hmem
    · rw [count_pair_map_eq nm l names, hc,
        count_pairs_zero_of_not_mem names nm l rest hl0]
    · have hne : l0 ≠ l := fun h => hl0 (h ▸ hmem)
      rw [count_pair_map_ne names nm hne, ih hrest l hmem]

/-- Each configured node occurs exactly once in the schedule at each sweep
level `1 ≤ l < high_level`. -/
theorem solveTrace_count {V : Type} (g : Game V) (k : ℕ)
    (hnodup : (orderedNodeNames g).Nodup) (nm : String)
    (hnm : nm ∈ orderedNodeNames g) (l : ℕ) (h1 : 1 ≤ l) (h2 : l < k) :
    ((solveTrace g k).count (nm, l)) = 1 := by
  have hcnm : (orderedNodeNames g).count nm = 1 := List.count_eq_one_of_mem hnodup hnm
  have hz : (g.players.flatMap (fun p =>
      ((partition g p).filter (fun d => d.Level == k)).map
        (fun d => (d.name, k)))).count (nm, l) = 0 := by
    apply List.count_eq_zero_of_not_mem
    intro hmem
    rcases List.mem_flatMap.mp hmem with ⟨p, _, hm⟩
    rcases List.mem_map.mp hm with ⟨d, _, hx⟩
    have hkl : k = l := congrArg Prod.snd hx
    omega
  have hrange : (List.range' 1 (k - 1)).Nodup :=
    (pairwise_lt_range1 (k - 1) 1).imp (fun h => Nat.ne_of_lt h)
  have hmem : l ∈ List.range' 1 (k - 1) := List.mem_range'_1.mpr ⟨h1, by omega⟩
  simp only [solveTrace]
  rw [List.count_append,
    count_flatMap_levels (orderedNodeNames g) nm hcnm (List.range' 1 (k - 1))
      hrange l hmem, hz]

theorem hasNode_of_ordered {V : Type} (g : Game V) (nm : String)
    (hnm : nm ∈ orderedNodeNames g) : hasNode g nm = true := by
  rcases List.mem_flatMap.mp hnm with ⟨p, _, hm⟩
  rcases List.mem_map.mp hm with ⟨d, hd, rfl⟩
  exact hasNode_of_mem g d (List.mem_of_mem_filter hd)

theorem hasNode_trace {V : Type} (g : Game V) (k : ℕ) :
    ∀ e ∈ solveTrace g k, hasNode g e.1 = true := by
  intro e he
  simp only [solveTrace] at he
  rcases List.mem_append.mp he with h | h
  · rcases List.mem_flatMap.mp h with ⟨l, _, hm⟩
    rcases List.mem_map.mp hm with ⟨x, hx, rfl⟩
    exact hasNode_of_ordered g x hx
  · exact hasNode_filter_block g k e h

theorem mem_trace_sweep {V : Type} (g : Game V) (k : ℕ) (nm : String) (l : ℕ)
    (hnm : nm ∈ orderedNodeNames g) (h1 : 1 ≤ l) (h2 : l < k) :
    (nm, l) ∈ solveTrace g k := by
  simp only [solveTrace]
  apply List.mem_append.mpr
  left
  exact List.mem_flatMap.mpr
    ⟨l, List.mem_range'_1.mpr ⟨h1, by omega⟩, List.mem_map.mpr ⟨nm, hnm, rfl⟩⟩

theorem mem_trace_final {V : Type} (g : Game V) (k : ℕ) (d : DNode V)
    (hd : d ∈ g.nodes) (hp : d.player ∈ g.players) (hLk : d.Level = k) :
    (d.name, k) ∈ solveTrace g k := by
  simp only [solveTrace, partition]
  apply List.mem_append.mpr
  right
  exact List.mem_flatMap.mpr
    ⟨d.player, hp, List.mem_map.mpr
      ⟨d, List.mem_filter.mpr ⟨List.mem_filter.mpr ⟨hd, by simp⟩, by simp [hLk]⟩, rfl⟩⟩

theorem mem_trace_final_inv {V : Type} (g : Game V) (k : ℕ) (nm : String)
    (hmem : (nm, k) ∈ solveTrace g k) :
    ∃ d ∈ g.nodes, d.name = nm ∧ d.Level = k := by
  simp only [solveTrace, partition] at hmem
  rcases List.mem_append.mp hmem with h | h
  · rcases List.mem_flatMap.mp h with ⟨l, hl, hm⟩
    rcases List.mem_map.mp hm with ⟨x, _, hx⟩
    have hlk : l = k := congrArg Prod.snd hx
    have hr := List.mem_range'_1.mp hl
    obtain ⟨ha, hb⟩ := hr
    omega
  · rcases List.mem_flatMap.mp h with ⟨p, _, hm⟩
    rcases List.mem_map.mp hm with ⟨d, hd, hx⟩
    have hname : d.name = nm := congrArg Prod.fst hx
    have hd1 := List.mem_filter.mp hd
    have hd2 := List.mem_filter.mp hd1.1
    have hLk : d.Level = k := by
      have := hd1.2
      simp only [beq_iff_eq] at this
      exact this
    exact ⟨d, hd2.1, hname, hLk⟩

/-- C3: `solve_game` performs exactly the static schedule `solveTrace`: a
full synchronous sweep that trains every configured decision node at each
level `1 … high_level - 1`, followed by a final pass that trains, at level
`high_level`, exactly the nodes whose configured target level equals
`high_level`. The schedule is level-monotone (every level-`l` event precedes
every level-`l+1` event, so all nodes receive their fresh `Level l` entry
before any node is trained at `l+1`), and each configured node occurs in it
exactly once per sweep level. On a freshly seeded graph the call succeeds,
every configured node ends with a `Level l` entry for each
`1 ≤ l < high_level`, every node targeting `high_level` gains a
`Level high_level` entry, and a configured node whose name belongs only to
nodes targeting a lower level never receives a `Level high_level` entry. -/
theorem solve_game_schedule {V : Type} (mceu : Game V → String → Tensor)
    (g : Game V) (k : ℕ) (hk : 1 ≤ k)
    (hnodup : (orderedNodeNames g).Nodup)
    (hfresh : ∀ nm ∈ orderedNodeNames g, ∀ l, 1 ≤ l → l ≤ k →
      hasLevel g nm l = false) :
    solve_game mceu g k false = trainMany mceu g (solveTrace g k)
    ∧ (solveTrace g k).Pairwise (fun a b => a.2 ≤ b.2)
    ∧ (∀ nm ∈ orderedNodeNames g, ∀ l, 1 ≤ l → l < k →
        ((solveTrace g k).count (nm, l)) = 1)
    ∧ (∀ nm, (nm, k) ∈ solveTrace g k →
        ∃ d ∈ g.nodes, d.name = nm ∧ d.Level = k)
    ∧ ∃ g2, solve_game mceu g k false = .ok g2
        ∧ (∀ nm ∈ orderedNodeNames g, ∀ l, 1 ≤ l → l < k →
            hasLevel g2 nm l = true)
        ∧ (∀ d ∈ g.nodes, d.player ∈ g.players → d.Level = k →
            hasLevel g2 d.name k = true)
        ∧ (∀ nm ∈ orderedNodeNames g, hasLevel g2 nm k = true →
            ∃ d ∈ g.nodes, d.name = nm ∧ d.Level = k) := by
  obtain ⟨g2, hok, _, _, _, hlev⟩ :=
    trainMany_spec mceu (solveTrace g k) g (hasNode_trace g k)
  have heq := solve_game_eq_trainMany mceu g k
  refine ⟨heq, solveTrace_pairwise g k, ?_, ?_, g2, ?_, ?_, ?_, ?_⟩
  · intro nm hnm l h1 h2
    exact solveTrace_count g k hnodup nm hnm l h1 h2
  · intro nm hmem
    exact mem_trace_final_inv g k nm hmem
  · rw [heq]
    exact hok
  · intro nm hnm l h1 h2
    exact (hlev nm l).mpr
      (Or.inr ⟨mem_trace_sweep g k nm l hnm h1 h2, hasNode_of_ordered g nm hnm⟩)
  · intro d hd hp hLk
    exact (hlev d.name k).mpr
      (Or.inr ⟨mem_trace_final g k d hd hp hLk, hasNode_of_mem g d hd⟩)
  · intro nm hnm hhl
    rcases (hlev nm k).mp hhl with hold | ⟨hmem, _⟩
    · rw [hfresh nm hnm k hk (Nat.le_refl k)] at hold
      cases hold
    · exact mem_trace_final_inv g k nm hmem

/-- C3, witness: `solve_game_schedule` applied to the seeded two-player game
`gSolve` (target levels 1 and 2) at `high_level = 2`. -/
theorem solve_game_schedule_witness :
    1 ≤ 2 ∧ (orderedNodeNames gSolve).Nodup
    ∧ solve_game mceuConst gSolve 2 false
        = trainMany mceuConst gSolve (solveTrace gSolve 2) :=
  ⟨by decide, by decide,
    (solve_game_schedule mceuConst gSolve 2 (by decide) (by decide)
      (by
        intro nm hnm l h1 h2
        have hall : ∀ x ∈ orderedNodeNames gSolve,
            hasLevel gSolve x 1 = false ∧ hasLevel gSolve x 2 = false := by decide
        have hl : l = 1 ∨ l = 2 := by omega
        rcases hl with rfl | rfl
        · exact (hall nm hnm).1
        · exact (hall nm hnm).2)).1⟩

end PyNFG
